import Mathlib

/-!
# Verification of the structured-logging redaction facade

Shallow embedding of `src/logging.ts`: the JSON-value model, the
serialize / global-replace / parse / redact pipeline installed on the
logging engine's `_emit`, the `req`/`res` serializers, the logger
factory's environment-driven configuration and the request-logging
middleware record, together with a heap model of in-place mutation used
to verify that the interceptor never mutates the caller's objects.
-/

set_option maxRecDepth 4000

mutual

/-- JavaScript runtime values as they appear in log records: JSON-style
trees extended with `undef` (the `undefined` value, which
`JSON.stringify` drops from objects and turns into `null` in arrays) and
`bigV` (`BigInt`, on which `JSON.stringify` throws). Floating point is
out of scope; numbers are modelled as integers. -/
inductive JsVal where
  | undef : JsVal
  | null : JsVal
  | boolV : Bool → JsVal
  | intV : Int → JsVal
  | strV : String → JsVal
  | arrV : JsArr → JsVal
  | objV : JsFields → JsVal
  | bigV : Int → JsVal

/-- Elements of a JavaScript array value. -/
inductive JsArr where
  | nil : JsArr
  | cons : JsVal → JsArr → JsArr

/-- Ordered own-property list of a JavaScript object (keys are unique in
a real object; the operations below preserve that). -/
inductive JsFields where
  | nil : JsFields
  | cons : String → JsVal → JsFields → JsFields

end

mutual

/-- Structural equality test on values. -/
def beqV : JsVal → JsVal → Bool
  | .undef, .undef => true
  | .null, .null => true
  | .boolV a, .boolV b => a == b
  | .intV a, .intV b => a == b
  | .strV a, .strV b => a == b
  | .arrV a, .arrV b => beqA a b
  | .objV a, .objV b => beqF a b
  | .bigV a, .bigV b => a == b
  | _, _ => false

/-- Structural equality test on array element lists. -/
def beqA : JsArr → JsArr → Bool
  | .nil, .nil => true
  | .cons h t, .cons h' t' => beqV h h' && beqA t t'
  | _, _ => false

/-- Structural equality test on field lists. -/
def beqF : JsFields → JsFields → Bool
  | .nil, .nil => true
  | .cons k v t, .cons k' v' t' => k == k' && beqV v v' && beqF t t'
  | _, _ => false

end

mutual

def beqV_iff : ∀ v w, beqV v w = true ↔ v = w
  | .undef, w => by cases w <;> simp [beqV]
  | .null, w => by cases w <;> simp [beqV]
  | .boolV a, w => by cases w <;> simp [beqV]
  | .intV a, w => by cases w <;> simp [beqV]
  | .strV a, w => by cases w <;> simp [beqV]
  | .arrV a, w => by cases w <;> simp [beqV, beqA_iff a]
  | .objV a, w => by cases w <;> simp [beqV, beqF_iff a]
  | .bigV a, w => by cases w <;> simp [beqV]

def beqA_iff : ∀ a w, beqA a w = true ↔ a = w
  | .nil, w => by cases w <;> simp [beqA]
  | .cons h t, w => by cases w <;> simp [beqA, beqV_iff h, beqA_iff t]

def beqF_iff : ∀ f w, beqF f w = true ↔ f = w
  | .nil, w => by cases w <;> simp [beqF]
  | .cons k v t, w => by cases w <;> simp [beqF, beqV_iff v, beqF_iff t, and_assoc]

end

instance : DecidableEq JsVal := fun a b => decidable_of_iff (beqV a b = true) (beqV_iff a b)

instance : DecidableEq JsArr := fun a b => decidable_of_iff (beqA a b = true) (beqA_iff a b)

instance : DecidableEq JsFields := fun a b => decidable_of_iff (beqF a b = true) (beqF_iff a b)

/-- Build a field list from a Lean list literal. -/
def fieldsOfList : List (String × JsVal) → JsFields
  | [] => .nil
  | (k, v) :: rest => .cons k v (fieldsOfList rest)

/-- Look a key up in a field list (JS property access on own keys). -/
def lookupF (k : String) : JsFields → Option JsVal
  | .nil => none
  | .cons k' v rest => if k' = k then some v else lookupF k rest

/-- Does the field list have the key? (`k in obj`). -/
def memKeyF (k : String) : JsFields → Bool
  | .nil => false
  | .cons k' _ rest => k' = k || memKeyF k rest

/-- Keys of a field list, in order. -/
def keysF : JsFields → List String
  | .nil => []
  | .cons k _ rest => k :: keysF rest

/-- `obj[k] = v` on an ordered property list: an existing key keeps its
position and gets the new value, a new key is appended. -/
def setKeyF (fs : JsFields) (k : String) (v : JsVal) : JsFields :=
  match fs with
  | .nil => .cons k v .nil
  | .cons k' v' rest => if k' = k then .cons k' v rest else .cons k' v' (setKeyF rest k v)

/-- `Object.assign(target, src)` restricted to the field lists: each
source entry is written onto the target in order. -/
def assignFields (target : JsFields) : JsFields → JsFields
  | .nil => target
  | .cons k v rest => assignFields (setKeyF target k v) rest

/-- The opening-brace character of JSON object syntax. -/
def lbraceC : Char := Char.ofNat 123

/-- The closing-brace character of JSON object syntax. -/
def rbraceC : Char := Char.ofNat 125

/-- Decimal digit test on a character. -/
def isDigitC (c : Char) : Bool := 48 ≤ c.toNat && c.toNat ≤ 57

/-- The decimal digit character for `n < 10`. -/
def digitChar (n : Nat) : Char := Char.ofNat (48 + n)

/-- Numeric value of a decimal digit character. -/
def digitVal (c : Char) : Nat := c.toNat - 48

/-- Fueled most-significant-first decimal rendering of a natural. -/
def natCharsGo : Nat → Nat → List Char
  | 0, _ => []
  | fuel + 1, n => if n < 10 then [digitChar n] else natCharsGo fuel (n / 10) ++ [digitChar (n % 10)]

/-- Decimal rendering of a natural number. -/
def natChars (n : Nat) : List Char := natCharsGo (n + 1) n

/-- Decimal rendering of an integer, as `JSON.stringify` prints it. -/
def intChars (i : Int) : List Char :=
  if i < 0 then '-' :: natChars i.natAbs else natChars i.toNat

/-- Lower-case hexadecimal digit character for `n < 16`. -/
def hexDigitChar (n : Nat) : Char :=
  if n < 10 then Char.ofNat (48 + n) else Char.ofNat (87 + n)

/-- Value of a hexadecimal digit character, if it is one. -/
def hexVal (c : Char) : Option Nat :=
  if 48 ≤ c.toNat ∧ c.toNat ≤ 57 then some (c.toNat - 48)
  else if 97 ≤ c.toNat ∧ c.toNat ≤ 102 then some (c.toNat - 87)
  else if 65 ≤ c.toNat ∧ c.toNat ≤ 70 then some (c.toNat - 55)
  else none

/-- `JSON.stringify` escaping of one character of a string: quote and
backslash are escaped, the named control escapes are used where they
exist, other control characters become `\u00XX`, everything else is
emitted raw. -/
def escChar (c : Char) : List Char :=
  if c = '"' then ['\\', '"']
  else if c = '\\' then ['\\', '\\']
  else if c = Char.ofNat 10 then ['\\', 'n']
  else if c = Char.ofNat 9 then ['\\', 't']
  else if c = Char.ofNat 13 then ['\\', 'r']
  else if c = Char.ofNat 8 then ['\\', 'b']
  else if c = Char.ofNat 12 then ['\\', 'f']
  else if c.toNat < 32 then
    ['\\', 'u', '0', '0', hexDigitChar (c.toNat / 16), hexDigitChar (c.toNat % 16)]
  else [c]

/-- Escape every character of a string body. -/
def escList : List Char → List Char
  | [] => []
  | c :: cs => escChar c ++ escList cs

/-- A JSON string literal: quote, escaped body, quote. -/
def strChars (s : String) : List Char := '"' :: escList s.data ++ ['"']

/-- Join serialized entries with commas, as inside `[...]` / `«{...}»`. -/
def joinComma : List (List Char) → List Char
  | [] => []
  | [e] => e
  | e :: es => e ++ ',' :: joinComma es

mutual

/-- `JSON.stringify` on a value, as the serialized character list.
`none` models a thrown `TypeError`: a `BigInt` anywhere, or `undefined`
at the top level (where `JSON.stringify` returns no string at all).
Inside objects, `undefined`-valued keys are dropped; inside arrays,
`undefined` elements are emitted as `null`. -/
def serVal : JsVal → Option (List Char)
  | .undef => none
  | .null => some ['n', 'u', 'l', 'l']
  | .boolV true => some ['t', 'r', 'u', 'e']
  | .boolV false => some ['f', 'a', 'l', 's', 'e']
  | .intV i => some (intChars i)
  | .strV s => some (strChars s)
  | .bigV _ => none
  | .arrV xs => do
      let es ← serItems xs
      some ('[' :: joinComma es ++ [']'])
  | .objV fs => do
      let es ← serEntries fs
      some (lbraceC :: joinComma es ++ [rbraceC])

/-- Serialized array elements (`undefined` becomes `null`). -/
def serItems : JsArr → Option (List (List Char))
  | .nil => some []
  | .cons v rest => do
      let e ← if v = .undef then some ['n', 'u', 'l', 'l'] else serVal v
      let es ← serItems rest
      some (e :: es)

/-- Serialized object entries (`undefined`-valued keys are dropped). -/
def serEntries : JsFields → Option (List (List Char))
  | .nil => some []
  | .cons k v rest =>
      if v = .undef then serEntries rest
      else do
        let e ← serVal v
        let es ← serEntries rest
        some ((strChars k ++ ':' :: e) :: es)

end

/-- `JSON.stringify` returning a `String` (`none` is a thrown error). -/
def stringifyTree (t : JsVal) : Option String := (serVal t).map fun cs => String.mk cs

/-- Parse a JSON string body after the opening quote, returning the
decoded characters and the remainder after the closing quote. -/
def parseStrBody : List Char → Option (List Char × List Char)
  | [] => none
  | c :: cs =>
    if c = '"' then some ([], cs)
    else if c = '\\' then
      match cs with
      | [] => none
      | e :: cs' =>
        if e = '"' then (parseStrBody cs').map fun p => ('"' :: p.1, p.2)
        else if e = '\\' then (parseStrBody cs').map fun p => ('\\' :: p.1, p.2)
        else if e = '/' then (parseStrBody cs').map fun p => ('/' :: p.1, p.2)
        else if e = 'n' then (parseStrBody cs').map fun p => (Char.ofNat 10 :: p.1, p.2)
        else if e = 't' then (parseStrBody cs').map fun p => (Char.ofNat 9 :: p.1, p.2)
        else if e = 'r' then (parseStrBody cs').map fun p => (Char.ofNat 13 :: p.1, p.2)
        else if e = 'b' then (parseStrBody cs').map fun p => (Char.ofNat 8 :: p.1, p.2)
        else if e = 'f' then (parseStrBody cs').map fun p => (Char.ofNat 12 :: p.1, p.2)
        else if e = 'u' then
          match cs' with
          | h1 :: h2 :: h3 :: h4 :: cs'' =>
            match hexVal h1, hexVal h2, hexVal h3, hexVal h4 with
            | some a, some b, some c3, some d =>
              (parseStrBody cs'').map fun p =>
                (Char.ofNat (4096 * a + 256 * b + 16 * c3 + d) :: p.1, p.2)
            | _, _, _, _ => none
          | _ => none
        else none
    else (parseStrBody cs).map fun p => (c :: p.1, p.2)

/-- Longest digit run at the front of the input. -/
def spanDigits : List Char → List Char × List Char
  | [] => ([], [])
  | c :: cs =>
    if isDigitC c then
      let p := spanDigits cs
      (c :: p.1, p.2)
    else ([], c :: cs)

/-- Value of a digit run, most significant first. -/
def digitsVal (ds : List Char) : Nat := ds.foldl (fun a c => 10 * a + digitVal c) 0

/-- The input does not begin with a digit (so a parsed number cannot
swallow characters of what follows). -/
def noDigitHead : List Char → Bool
  | [] => true
  | c :: _ => !isDigitC c

mutual

/-- Fueled recursive-descent parser for the JSON emitted by `serVal`
(integer numbers, no insignificant whitespace), modelling `JSON.parse`;
`none` models a thrown `SyntaxError`. -/
def parseVal : Nat → List Char → Option (JsVal × List Char)
  | 0, _ => none
  | fuel + 1, input =>
    match input with
    | [] => none
    | c :: cs =>
      if c = 'n' then
        match cs with
        | 'u' :: 'l' :: 'l' :: r => some (.null, r)
        | _ => none
      else if c = 't' then
        match cs with
        | 'r' :: 'u' :: 'e' :: r => some (.boolV true, r)
        | _ => none
      else if c = 'f' then
        match cs with
        | 'a' :: 'l' :: 's' :: 'e' :: r => some (.boolV false, r)
        | _ => none
      else if c = '"' then
        (parseStrBody cs).map fun p => (.strV (String.mk p.1), p.2)
      else if c = '-' then
        match spanDigits cs with
        | ([], _) => none
        | (ds, r) => some (.intV (-(digitsVal ds : Int)), r)
      else if isDigitC c then
        let p := spanDigits (c :: cs)
        some (.intV (digitsVal p.1), p.2)
      else if c = '[' then
        match cs with
        | [] => none
        | d :: cs' =>
          if d = ']' then some (.arrV .nil, cs')
          else (parseItems fuel (d :: cs')).map fun p => (.arrV p.1, p.2)
      else if c = lbraceC then
        match cs with
        | [] => none
        | d :: cs' =>
          if d = rbraceC then some (.objV .nil, cs')
          else (parseEntries fuel (d :: cs')).map fun p => (.objV p.1, p.2)
      else none

/-- Parse one or more comma-separated array elements up to `]`. -/
def parseItems : Nat → List Char → Option (JsArr × List Char)
  | 0, _ => none
  | fuel + 1, input => do
    let (v, r) ← parseVal fuel input
    match r with
    | ',' :: r' => do
        let (vs, r'') ← parseItems fuel r'
        some (.cons v vs, r'')
    | ']' :: r' => some (.cons v .nil, r')
    | _ => none

/-- Parse one or more comma-separated `"key":value` entries up to the
closing brace. -/
def parseEntries : Nat → List Char → Option (JsFields × List Char)
  | 0, _ => none
  | fuel + 1, input =>
    match input with
    | [] => none
    | c :: cs =>
      if c = '"' then do
        let (k, r) ← parseStrBody cs
        match r with
        | ':' :: r' => do
          let (v, r'') ← parseVal fuel r'
          match r'' with
          | ',' :: r3 => do
              let (fs, r4) ← parseEntries fuel r3
              some (.cons (String.mk k) v fs, r4)
          | d :: r3 => if d = rbraceC then some (.cons (String.mk k) v .nil, r3) else none
          | _ => none
        | _ => none
      else none

end

/-- `JSON.parse` on a whole string: the parsed value with no input left
over (`none` is a thrown `SyntaxError`). -/
def parseTree (s : String) : Option JsVal :=
  match parseVal (s.data.length + 1) s.data with
  | some (v, []) => some v
  | _ => none

mutual

/-- The value `JSON.parse ∘ JSON.stringify` reconstructs: recursively,
`undefined`-valued object keys disappear and `undefined` array elements
become `null`. -/
def stripVal : JsVal → JsVal
  | .undef => .undef
  | .null => .null
  | .boolV b => .boolV b
  | .intV i => .intV i
  | .strV s => .strV s
  | .bigV n => .bigV n
  | .arrV xs => .arrV (stripArr xs)
  | .objV fs => .objV (stripFields fs)

/-- `stripVal` on array elements. -/
def stripArr : JsArr → JsArr
  | .nil => .nil
  | .cons v rest => .cons (if v = .undef then .null else stripVal v) (stripArr rest)

/-- `stripVal` on object entries. -/
def stripFields : JsFields → JsFields
  | .nil => .nil
  | .cons k v rest =>
      if v = .undef then stripFields rest else .cons k (stripVal v) (stripFields rest)

end

mutual

/-- Parser fuel sufficient to reparse the serialization of a value. -/
def needV : JsVal → Nat
  | .arrV xs => 1 + needA xs
  | .objV fs => 1 + needF fs
  | _ => 1

/-- Parser fuel sufficient for serialized array elements. -/
def needA : JsArr → Nat
  | .nil => 1
  | .cons v rest => 1 + max (needV v) (needA rest)

/-- Parser fuel sufficient for serialized object entries. -/
def needF : JsFields → Nat
  | .nil => 1
  | .cons _ v rest => if v = .undef then needF rest else 1 + max (needV v) (needF rest)

end

/-- Apply one fast-redact rule path (already split on the dots) to a
value: if every intermediate key resolves and the final key exists, its
value is replaced by the censor; a path that does not resolve is a
no-op, exactly the documented fast-redact contract the interceptor
relies on (fast-redact itself is an external dependency; this is its
path semantics for plain dot-paths, `serialize:false`). -/
def setPath (c : JsVal) : JsVal → List String → JsVal
  | t, [] => t
  | .objV fs, [k] => if memKeyF k fs then .objV (setKeyF fs k c) else .objV fs
  | .objV fs, k :: ks =>
      match lookupF k fs with
      | some v => .objV (setKeyF fs k (setPath c v ks))
      | none => .objV fs
  | t, _ :: _ => t

/-- The compiled fast-redact redaction function with `serialize:false`:
every rule path applied in order, censor value a fixed string. -/
def redactTree (paths : List (List String)) (censor : String) (t : JsVal) : JsVal :=
  paths.foldl (fun acc p => setPath (.strV censor) acc p) t

/-- The `ExtendedRedactOptions` the factory accepts: fast-redact options
(rule paths, censor, `serialize`, defaulting to fast-redact's defaults)
plus the repository's extra `globalReplace` whole-text transform. -/
structure RedactOptions where
  paths : List (List String) := []
  censor : String := "[REDACTED]"
  serialize : Bool := true
  globalReplace : Option (String → String) := none

/-- `redactConfig?.globalReplace ?? ((value) => value)`. -/
def grOf (o : RedactOptions) : String → String := o.globalReplace.getD id

/-- What a compiled fast-redact function returns: the redacted structure
when `serialize:false`, the serialized text when `serialize:true`
(where serialization itself can throw, hence the inner `Option`). -/
inductive RedactOut where
  | asVal : JsVal → RedactOut
  | asText : Option String → RedactOut
deriving DecidableEq

/-- `fastRedact(options)`: the compiled redaction function. -/
def fastRedactFn (o : RedactOptions) (v : JsVal) : RedactOut :=
  if o.serialize then .asText (stringifyTree (redactTree o.paths o.censor v))
  else .asVal (redactTree o.paths o.censor v)

/-- `fastRedact(«{...redactConfig, serialize: false}»)` — the redactor
the factory actually compiles, with the caller's `serialize` overridden. -/
def loggerRedact (o : RedactOptions) : JsVal → RedactOut :=
  fastRedactFn { o with serialize := false }

/-- Bunyan's core fields preserved by the interceptor (`msg` excluded on
purpose): `const «{ v, level, name, hostname, pid, time, src, ...rest }» = logRecord`. -/
def reservedKeys : List String := ["v", "level", "name", "hostname", "pid", "time", "src"]

/-- The `...rest` of the destructuring: every record field that is not
one of the seven reserved keys, in record order (`msg` stays). -/
def restFields : JsFields → JsFields
  | .nil => .nil
  | .cons k v rest =>
      if reservedKeys.contains k then restFields rest else .cons k v (restFields rest)

/-- Own enumerable properties `Object.assign` reads off a source value:
an object's fields; an array's or string's indexed elements; nothing
for primitives, `null` and `undefined`. -/
def srcFieldsArr : Nat → JsArr → JsFields
  | _, .nil => .nil
  | i, .cons v rest => .cons (String.mk (natChars i)) v (srcFieldsArr (i + 1) rest)

/-- Indexed character properties of a boxed string. -/
def srcFieldsStr : Nat → List Char → JsFields
  | _, [] => .nil
  | i, c :: cs => .cons (String.mk (natChars i)) (.strV (String.mk [c])) (srcFieldsStr (i + 1) cs)

/-- See `srcFieldsArr`. -/
def srcFields : JsVal → JsFields
  | .objV fs => fs
  | .arrV xs => srcFieldsArr 0 xs
  | .strV s => srcFieldsStr 0 s.data
  | _ => .nil

/-- The patched `logger._emit` interceptor, as a function on the record
value: split off the reserved fields, `JSON.stringify` the rest, apply
`globalReplace` to the text, `JSON.parse` it back, run the compiled
redactor, and `Object.assign` the result onto the record. `some out` is
the record forwarded (exactly once) to the original `_emit`; `none`
means the thrown error propagated synchronously to the log-call site
and nothing was forwarded. -/
def emit (cfg : RedactOptions) (record : JsFields) : Option JsFields :=
  match stringifyTree (.objV (restFields record)) with
  | none => none
  | some s =>
    match parseTree (grOf cfg s) with
    | none => none
    | some t =>
      match loggerRedact cfg t with
      | .asVal r => some (assignFields record (srcFields r))
      | .asText _ => none

/-- JavaScript truthiness on the modelled values (`NaN` is out of scope
with floating point). -/
def jsTruthy : JsVal → Bool
  | .undef => false
  | .null => false
  | .boolV b => b
  | .intV n => !(n == 0)
  | .strV s => !(s == "")
  | .bigV n => !(n == 0)
  | .arrV _ => true
  | .objV _ => true

/-- JS property read `v[k]`: a missing key or a non-object receiver
yields `undefined` (the `!req` guards rule out the throwing cases). -/
def jsGet (v : JsVal) (k : String) : JsVal :=
  match v with
  | .objV fs => (lookupF k fs).getD .undef
  | _ => (.undef)

/-- JS `a || b`. -/
def jsOr (a b : JsVal) : JsVal := if jsTruthy a then a else b

/-- The `req` serializer of `createDetailedRequestSerializers`. -/
def serializeReq (req : JsVal) : JsVal :=
  if !jsTruthy req || !jsTruthy (jsGet req "connection") then req
  else
    .objV (fieldsOfList
      [("method", jsGet req "method"),
       ("url", jsOr (jsGet req "originalUrl") (jsGet req "url")),
       ("query", jsGet req "query"),
       ("body", jsGet req "body"),
       ("headers", jsGet req "headers"),
       ("remoteAddress", jsGet (jsGet req "connection") "remoteAddress"),
       ("remotePort", jsGet (jsGet req "connection") "remotePort")])

/-- The `res` serializer of `createDetailedRequestSerializers`. -/
def serializeRes (res : JsVal) : JsVal :=
  if !jsTruthy res || !jsTruthy (jsGet res "statusCode") then res
  else
    .objV (fieldsOfList
      [("statusCode", jsGet res "statusCode"),
       ("header", jsGet res "_header")])

/-- The environment variables `createLogger` reads (`none` = unset). -/
structure Env where
  gaeService : Option String := none
  kService : Option String := none
  logLevel : Option String := none

/-- JS truthiness of `process.env.X`: set and non-empty. -/
def strTruthy : Option String → Bool
  | none => false
  | some s => !(s == "")

/-- JS `a || b` on possibly-undefined environment strings. -/
def jsOrStr (a b : Option String) : Option String := if strTruthy a then a else b

/-- `process.env.GAE_SERVICE || process.env.K_SERVICE`. -/
def getGoogleServiceName (env : Env) : Option String := jsOrStr env.gaeService env.kService

/-- The two stream configurations the factory can install, tagged with
the minimum level they are given: the `LoggingBunyan` structured
log-shipping stream (`redirectToStdout`) or the `PrettyStream`
human-readable console stream. -/
inductive StreamSpec where
  | cloudLogging : String → StreamSpec
  | prettyConsole : String → StreamSpec
deriving DecidableEq

/-- The name and stream list handed to `Logger.createLogger`. -/
structure LoggerShape where
  name : String
  streams : List StreamSpec
deriving DecidableEq

/-- `level || process.env.LOG_LEVEL || 'info'`. -/
def effectiveLevel (env : Env) (level : Option String) : String :=
  (jsOrStr level (jsOrStr env.logLevel (some "info"))).getD "info"

/-- The name/stream selection of `createLogger`, as a function of the
environment and the `level` option. -/
def createLoggerShape (env : Env) (level : Option String) : LoggerShape :=
  let logLevel := effectiveLevel env level
  match getGoogleServiceName env with
  | some s =>
      if s == "" then ⟨"default", [.prettyConsole logLevel]⟩
      else ⟨s, [.cloudLogging logLevel]⟩
  | none => ⟨"default", [.prettyConsole logLevel]⟩

/-- `LOGGING_TRACE_KEY` of `@google-cloud/logging-bunyan`. -/
def traceKeyS : String := "logging.googleapis.com/trace"

/-- `LOGGING_SPAN_KEY` of `@google-cloud/logging-bunyan`. -/
def spanKeyS : String := "logging.googleapis.com/spanId"

/-- `LOGGING_SAMPLED_KEY` of `@google-cloud/logging-bunyan`. -/
def sampledKeyS : String := "logging.googleapis.com/trace_sampled"

/-- List-level string prefix test (`String.startsWith`). -/
def leadsWith : List Char → List Char → Bool
  | [], _ => true
  | _ :: _, [] => false
  | p :: ps, c :: cs => p = c && leadsWith ps cs

/-- `s.startsWith(pat)`. -/
def strLeads (s pat : String) : Bool := leadsWith pat.data s.data

/-- The middleware's `requestUrl` override: a string URL gets the
`/functionName` prefix exactly when it starts with `/` and does not
already start with `/functionName`; anything else (including an absent
`requestUrl`) is carried through unchanged. -/
def rewriteRequestUrl (fn : String) (u : JsVal) : JsVal :=
  match u with
  | .strV url =>
      if strLeads url "/" && !strLeads url ("/" ++ fn) then .strV ("/" ++ fn ++ url)
      else .strV url
  | other => other

/-- A possibly-absent string option as a JS value. -/
def optStr : Option String → JsVal
  | none => .undef
  | some s => .strV s

/-- A possibly-absent boolean option as a JS value. -/
def optBool : Option Bool → JsVal
  | none => .undef
  | some b => .boolV b

/-- The record `emitRequestLog` passes to `logger.info`: always `req`
and `res`; and, only when `process.env.K_SERVICE` is truthy, the
`httpRequest` structured field (with the rewritten `requestUrl`) plus
the trace, span and sampled keys. The spread of `undefined` in the
non-Cloud-Function case contributes no fields. -/
def emitRequestLogRecord (kService : Option String) (req res : JsVal) (hr : JsFields)
    (trace : String) (span : Option String) (sampled : Option Bool) : JsFields :=
  let base := fieldsOfList [("req", req), ("res", res)]
  match kService with
  | some fn =>
      if fn == "" then base
      else
        assignFields base (fieldsOfList
          [("httpRequest",
             .objV (setKeyF hr "requestUrl"
               (rewriteRequestUrl fn ((lookupF "requestUrl" hr).getD .undef)))),
           (traceKeyS, .strV trace),
           (spanKeyS, optStr span),
           (sampledKeyS, optBool sampled)])
  | none => base

/-- Heap values: primitives live inline, objects and arrays are
references into the heap, making JavaScript aliasing and in-place
mutation explicit. -/
inductive HVal where
  | undef : HVal
  | null : HVal
  | boolH : Bool → HVal
  | intH : Int → HVal
  | strH : String → HVal
  | bigH : Int → HVal
  | ref : Nat → HVal
deriving DecidableEq

/-- A heap cell: an object's ordered property list or an array. -/
inductive HObj where
  | mkObj : List (String × HVal) → HObj
  | mkArr : List HVal → HObj
deriving DecidableEq

/-- Address lookup in the cell list. -/
def cellsGet : List (Nat × HObj) → Nat → Option HObj
  | [], _ => none
  | c :: cs, a => if c.1 = a then some c.2 else cellsGet cs a

/-- In-place overwrite of the cell at an address. -/
def cellsSet : List (Nat × HObj) → Nat → HObj → List (Nat × HObj)
  | [], _, _ => []
  | c :: cs, a, o => if c.1 = a then (a, o) :: cs else c :: cellsSet cs a o

/-- The mutable object store: the next fresh address and the cells. -/
structure Heap where
  next : Nat
  cells : List (Nat × HObj)
deriving DecidableEq

/-- Dereference an address. -/
def Heap.get (h : Heap) (a : Nat) : Option HObj := cellsGet h.cells a

/-- Mutate the cell at an address. -/
def Heap.set (h : Heap) (a : Nat) (o : HObj) : Heap := ⟨h.next, cellsSet h.cells a o⟩

/-- Allocate a fresh cell. -/
def Heap.alloc (h : Heap) (o : HObj) : Heap × Nat :=
  (⟨h.next + 1, h.cells ++ [(h.next, o)]⟩, h.next)

/-- Well-formedness of an allocator-built heap: every allocated address
is below the fresh-address counter. -/
def Heap.WF (h : Heap) : Prop := ∀ c ∈ h.cells, c.1 < h.next

/-- Addresses a heap value mentions. -/
def refsV : HVal → List Nat
  | .ref a => [a]
  | _ => []

/-- Addresses mentioned by an object's properties. -/
def refsFieldsH : List (String × HVal) → List Nat
  | [] => []
  | (_, v) :: rest => refsV v ++ refsFieldsH rest

/-- Addresses mentioned by an array's elements. -/
def refsItemsH : List HVal → List Nat
  | [] => []
  | v :: rest => refsV v ++ refsItemsH rest

/-- Addresses a cell mentions. -/
def refsObj : HObj → List Nat
  | .mkObj fs => refsFieldsH fs
  | .mkArr xs => refsItemsH xs

/-- Rebuild an array value from a Lean list. -/
def arrOfList : List JsVal → JsArr
  | [] => .nil
  | v :: rest => .cons v (arrOfList rest)

/-- Read a heap value out to a tree, as `JSON.stringify`'s traversal
does; the fuel bounds reference-chain depth so that a cyclic structure
(on which `JSON.stringify` throws) reads as `none`. -/
def readVal : Nat → Heap → HVal → Option JsVal
  | _, _, .undef => some .undef
  | _, _, .null => some .null
  | _, _, .boolH b => some (.boolV b)
  | _, _, .intH n => some (.intV n)
  | _, _, .strH s => some (.strV s)
  | _, _, .bigH n => some (.bigV n)
  | 0, _, .ref _ => none
  | fuel + 1, h, .ref a =>
    match h.get a with
    | none => none
    | some (.mkObj fs) =>
        (fs.mapM fun kv => (readVal fuel h kv.2).map fun t => (kv.1, t)).map
          fun l => .objV (fieldsOfList l)
    | some (.mkArr xs) =>
        (xs.mapM (readVal fuel h)).map fun l => .arrV (arrOfList l)

/-- `readVal` across a record's property list (the record cell itself
already dereferenced). -/
def readFieldsTop (fuel : Nat) (h : Heap) (fs : List (String × HVal)) : Option JsFields :=
  (fs.mapM fun kv => (readVal fuel h kv.2).map fun t => (kv.1, t)).map fieldsOfList

mutual

/-- Allocate a parsed tree into the heap, `JSON.parse`-style: every
object and array gets a fresh cell, so the result shares no cell with
any pre-existing structure. -/
def allocTree : JsVal → Heap → HVal × Heap
  | .undef, h => (.undef, h)
  | .null, h => (.null, h)
  | .boolV b, h => (.boolH b, h)
  | .intV n, h => (.intH n, h)
  | .strV s, h => (.strH s, h)
  | .bigV n, h => (.bigH n, h)
  | .arrV xs, h =>
      let p := allocItems xs h
      let q := p.2.alloc (.mkArr p.1)
      (.ref q.2, q.1)
  | .objV fs, h =>
      let p := allocEntries fs h
      let q := p.2.alloc (.mkObj p.1)
      (.ref q.2, q.1)

/-- `allocTree` over array elements. -/
def allocItems : JsArr → Heap → List HVal × Heap
  | .nil, h => ([], h)
  | .cons v rest, h =>
      let p := allocTree v h
      let q := allocItems rest p.2
      (p.1 :: q.1, q.2)

/-- `allocTree` over object entries. -/
def allocEntries : JsFields → Heap → List (String × HVal) × Heap
  | .nil, h => ([], h)
  | .cons k v rest, h =>
      let p := allocTree v h
      let q := allocEntries rest p.2
      ((k, p.1) :: q.1, q.2)

end

/-- Key presence in a cell's property list. -/
def hasKeyH (k : String) : List (String × HVal) → Bool
  | [] => false
  | (k', _) :: rest => k' = k || hasKeyH k rest

/-- Key lookup in a cell's property list. -/
def getKeyH (k : String) : List (String × HVal) → Option HVal
  | [] => none
  | (k', v) :: rest => if k' = k then some v else getKeyH k rest

/-- In-place property write in a cell's property list. -/
def setKeyH (k : String) (v : HVal) : List (String × HVal) → List (String × HVal)
  | [] => [(k, v)]
  | (k', v') :: rest => if k' = k then (k', v) :: rest else (k', v') :: setKeyH k v rest

/-- Resolve one fast-redact path from a value: the address of the owning
object and the final key, if the whole path resolves through object
properties and the final key exists. -/
def navPath (h : Heap) : HVal → List String → Option (Nat × String)
  | _, [] => none
  | .ref a, [k] =>
      match h.get a with
      | some (.mkObj fs) => if hasKeyH k fs then some (a, k) else none
      | _ => none
  | .ref a, k :: ks =>
      match h.get a with
      | some (.mkObj fs) =>
          match getKeyH k fs with
          | some v => navPath h v ks
          | none => none
      | _ => none
  | _, _ :: _ => none

/-- Apply one redaction rule in place: overwrite the resolved property
with the censor string; unresolved paths are a no-op. -/
def applyPathH (censor : String) (h : Heap) (v : HVal) (p : List String) : Heap :=
  match navPath h v p with
  | some (a, k) =>
      match h.get a with
      | some (.mkObj fs) => h.set a (.mkObj (setKeyH k (.strH censor) fs))
      | _ => h
  | none => h

/-- The compiled fast-redact function on the heap: it mutates its
argument in place (and returns it), which is why the interceptor hands
it the freshly parsed copy and never the caller's objects. -/
def redactHeap (paths : List (List String)) (censor : String) (v : HVal) (h : Heap) : Heap :=
  paths.foldl (fun hh p => applyPathH censor hh v p) h

/-- Array elements as the indexed own properties `Object.assign` sees. -/
def idxEntriesH : Nat → List HVal → List (String × HVal)
  | _, [] => []
  | i, v :: rest => (String.mk (natChars i), v) :: idxEntriesH (i + 1) rest

/-- A boxed string's indexed own properties. -/
def idxStrH : Nat → List Char → List (String × HVal)
  | _, [] => []
  | i, c :: cs => (String.mk (natChars i), .strH (String.mk [c])) :: idxStrH (i + 1) cs

/-- Own enumerable properties of an `Object.assign` source value. -/
def srcEntriesH (h : Heap) : HVal → List (String × HVal)
  | .ref a =>
      match h.get a with
      | some (.mkObj fs) => fs
      | some (.mkArr xs) => idxEntriesH 0 xs
      | none => []
  | .strH s => idxStrH 0 s.data
  | _ => []

/-- Property-list `Object.assign`. -/
def assignH : List (String × HVal) → List (String × HVal) → List (String × HVal)
  | t, [] => t
  | t, (k, v) :: rest => assignH (setKeyH k v t) rest

/-- `Object.assign(logRecord, src)`: mutates the record cell in place. -/
def objAssignHeap (h : Heap) (target : Nat) (src : HVal) : Heap :=
  match h.get target with
  | some (.mkObj fs) => h.set target (.mkObj (assignH fs (srcEntriesH h src)))
  | _ => h

/-- `...rest` on a heap record's property list. -/
def restH : List (String × HVal) → List (String × HVal)
  | [] => []
  | (k, v) :: rest =>
      if reservedKeys.contains k then restH rest else (k, v) :: restH rest

/-- The redaction input of one interceptor invocation: the record's
non-reserved fields read out of the heap, `JSON.stringify`ed, passed
through `globalReplace` and `JSON.parse`d — everything the pipeline
does before the redactor mutates anything. -/
def emitRedactInput (cfg : RedactOptions) (h : Heap) (recAddr : Nat) : Option JsVal :=
  match h.get recAddr with
  | some (.mkObj fields) =>
      match readFieldsTop (h.next + 1) h (restH fields) with
      | some ts =>
          match stringifyTree (.objV ts) with
          | some s => parseTree (grOf cfg s)
          | none => none
      | none => none
  | _ => none

/-- The interceptor on the heap: compute the redaction input, allocate
the parsed copy fresh, let the redactor mutate that copy in place, and
`Object.assign` it onto the record cell. `none` is the synchronously
propagated error (nothing written, nothing forwarded). -/
def emitH (cfg : RedactOptions) (h : Heap) (recAddr : Nat) : Option Heap :=
  match emitRedactInput cfg h recAddr with
  | some t =>
      let p := allocTree t h
      some (objAssignHeap (redactHeap cfg.paths cfg.censor p.1 p.2) recAddr p.1)
  | none => none

theorem lookupF_some_mem {k : String} {v : JsVal} : ∀ fs, lookupF k fs = some v → memKeyF k fs = true
  | .nil => by simp [lookupF]
  | .cons k' v' rest => by
      by_cases h : k' = k <;> intro hl <;>
        simp [lookupF, h, memKeyF] at hl ⊢ <;>
        exact lookupF_some_mem rest hl

theorem memKeyF_iff_keysF {k : String} : ∀ fs, memKeyF k fs = true ↔ k ∈ keysF fs
  | .nil => by simp [memKeyF, keysF]
  | .cons k' _ rest => by
      by_cases h : k' = k
      · simp [memKeyF, keysF, h, memKeyF_iff_keysF rest]
      · have h2 : ¬k = k' := fun hh => h hh.symm
        simp [memKeyF, keysF, h, h2, memKeyF_iff_keysF rest]

theorem keysF_setKeyF_of_mem {k : String} {v : JsVal} :
    ∀ fs, memKeyF k fs = true → keysF (setKeyF fs k v) = keysF fs
  | .nil => by simp [memKeyF]
  | .cons k' v' rest => by
      by_cases h : k' = k <;> intro hm <;>
        simp [memKeyF, h, setKeyF, keysF] at hm ⊢ <;>
        exact keysF_setKeyF_of_mem rest hm

theorem lookupF_setKeyF_ne {k k' : String} {v : JsVal} (h : k' ≠ k) :
    ∀ fs, lookupF k' (setKeyF fs k v) = lookupF k' fs
  | .nil => by
      have h2 : ¬k = k' := fun hh => h hh.symm
      simp [setKeyF, lookupF, h2]
  | .cons k'' v'' rest => by
      by_cases h1 : k'' = k
      · subst h1
        have h2 : ¬k'' = k' := fun hh => h hh.symm
        simp [setKeyF, lookupF, h2]
      · simp [setKeyF, h1, lookupF, lookupF_setKeyF_ne h rest]

theorem memKeyF_setKeyF_of_mem {k k' : String} {v : JsVal} :
    ∀ fs, memKeyF k fs = true → memKeyF k (setKeyF fs k' v) = true
  | .nil => by simp [memKeyF]
  | .cons k'' v'' rest => by
      intro hm
      by_cases h1 : k'' = k'
      · subst h1
        simp [setKeyF, memKeyF] at hm ⊢
        exact hm
      · simp [setKeyF, h1, memKeyF] at hm ⊢
        rcases hm with hm | hm
        · exact Or.inl hm
        · exact Or.inr (memKeyF_setKeyF_of_mem rest hm)

theorem memKeyF_assignFields_left {k : String} :
    ∀ src t, memKeyF k t = true → memKeyF k (assignFields t src) = true
  | .nil, t => by simp [assignFields]
  | .cons k' v' rest, t => fun hm =>
      memKeyF_assignFields_left rest (setKeyF t k' v') (memKeyF_setKeyF_of_mem t hm)

theorem lookupF_assignFields_not_mem {k : String} :
    ∀ src t, memKeyF k src = false → lookupF k (assignFields t src) = lookupF k t
  | .nil, t => by simp [assignFields]
  | .cons k' v' rest, t => by
      intro hm
      simp [memKeyF] at hm
      rw [assignFields, lookupF_assignFields_not_mem rest _ (by simp [hm.2]),
        lookupF_setKeyF_ne (fun hh => hm.1 hh.symm)]

theorem memKeyF_restFields {k : String} :
    ∀ fs, memKeyF k (restFields fs) = (memKeyF k fs && !(reservedKeys.contains k))
  | .nil => by simp [restFields, memKeyF]
  | .cons k' v rest => by
      by_cases hr : k' ∈ reservedKeys
      · by_cases h : k' = k
        · subst h
          simp [restFields, hr, memKeyF, memKeyF_restFields rest]
        · simp [restFields, hr, memKeyF, h, memKeyF_restFields rest]
      · simp [restFields, hr, memKeyF, memKeyF_restFields rest]
        by_cases h : k' = k
        · subst h; simp [hr]
        · simp [h]

theorem lookupF_restFields {k : String} (hk : reservedKeys.contains k = false) :
    ∀ fs, lookupF k (restFields fs) = lookupF k fs
  | .nil => by simp [restFields]
  | .cons k' v rest => by
      by_cases hr : k' ∈ reservedKeys
      · have hne : ¬k' = k := by
          intro h
          subst h
          simp at hk
          exact hk hr
        simp [restFields, hr, lookupF, hne, lookupF_restFields hk rest]
      · simp [restFields, hr, lookupF, lookupF_restFields hk rest]

theorem memKeyF_stripFields {k : String} :
    ∀ fs, memKeyF k (stripFields fs) = true → memKeyF k fs = true
  | .nil => by simp [stripFields]
  | .cons k' v rest => by
      by_cases hv : v = .undef
      · intro h
        simp [stripFields, hv] at h
        simp [memKeyF, memKeyF_stripFields rest h]
      · intro h
        simp [stripFields, hv, memKeyF] at h ⊢
        rcases h with h | h
        · exact Or.inl h
        · exact Or.inr (memKeyF_stripFields rest h)

theorem setPath_objV_keys (c : JsVal) (p : List String) (fs : JsFields) :
    ∃ fs', setPath c (.objV fs) p = .objV fs' ∧ keysF fs' = keysF fs := by
  match p with
  | [] => exact ⟨fs, rfl, rfl⟩
  | [k] =>
      by_cases h : memKeyF k fs = true
      · exact ⟨setKeyF fs k c, by simp [setPath, h], keysF_setKeyF_of_mem fs h⟩
      · exact ⟨fs, by simp [setPath, h], rfl⟩
  | k :: k2 :: ks =>
      cases hl : lookupF k fs with
      | none => exact ⟨fs, by simp [setPath, hl], rfl⟩
      | some v =>
          exact ⟨setKeyF fs k (setPath c v (k2 :: ks)), by simp [setPath, hl],
            keysF_setKeyF_of_mem fs (lookupF_some_mem fs hl)⟩

theorem redactTree_objV_keys (censor : String) :
    ∀ (paths : List (List String)) (fs : JsFields),
      ∃ fs', redactTree paths censor (.objV fs) = .objV fs' ∧ keysF fs' = keysF fs := by
  intro paths
  induction paths with
  | nil => exact fun fs => ⟨fs, rfl, rfl⟩
  | cons p ps ih =>
      intro fs
      obtain ⟨fs1, h1, hk1⟩ := setPath_objV_keys (.strV censor) p fs
      obtain ⟨fs2, h2, hk2⟩ := ih fs1
      refine ⟨fs2, ?_, hk2.trans hk1⟩
      simp [redactTree, List.foldl] at h2 ⊢
      rw [h1]
      exact h2

theorem emit_some_shape {cfg : RedactOptions} {record out : JsFields}
    (h : emit cfg record = some out) :
    ∃ s t, stringifyTree (.objV (restFields record)) = some s ∧
      parseTree (grOf cfg s) = some t ∧
      out = assignFields record (srcFields (redactTree cfg.paths cfg.censor t)) := by
  unfold emit at h
  split at h
  · cases h
  · rename_i s hs
    split at h
    · cases h
    · rename_i t hp
      split at h
      · rename_i r hr
        simp [loggerRedact, fastRedactFn] at hr
        subst hr
        exact ⟨s, t, hs, hp, (Option.some_inj.mp h).symm⟩
      · cases h

/-- Claim C3: the payload written back onto the record is exactly
`redact(JSON.parse(globalReplace(JSON.stringify(rest))))`, assigned
over the record, where `rest` is the record minus the reserved fields;
and with no `globalReplace` configured the text transform is the
identity function. -/
theorem emit_pipeline_shape (cfg : RedactOptions) (record out : JsFields)
    (h : emit cfg record = some out) :
    ∃ s t, stringifyTree (.objV (restFields record)) = some s ∧
      parseTree (grOf cfg s) = some t ∧
      loggerRedact cfg t = .asVal (redactTree cfg.paths cfg.censor t) ∧
      out = assignFields record (srcFields (redactTree cfg.paths cfg.censor t)) ∧
      (cfg.globalReplace = none → grOf cfg = id) := by
  obtain ⟨s, t, hs, hp, hout⟩ := emit_some_shape h
  exact ⟨s, t, hs, hp, by simp [loggerRedact, fastRedactFn], hout,
    fun hn => by simp [grOf, hn]⟩

/-- Witness for C3 at a concrete record and rule set. -/
theorem emit_pipeline_shape_witness :
    ∃ s t, stringifyTree (.objV (restFields (fieldsOfList [("level", .intV 30), ("password", .strV "s")]))) = some s ∧
      parseTree (grOf { paths := [["password"]] } s) = some t ∧
      loggerRedact { paths := [["password"]] } t
        = .asVal (redactTree [["password"]] "[REDACTED]" t) ∧
      fieldsOfList [("level", .intV 30), ("password", .strV "[REDACTED]")]
        = assignFields (fieldsOfList [("level", .intV 30), ("password", .strV "s")])
            (srcFields (redactTree [["password"]] "[REDACTED]" t)) ∧
      (({ paths := [["password"]] } : RedactOptions).globalReplace = none →
        grOf { paths := [["password"]] } = id) :=
  emit_pipeline_shape { paths := [["password"]] }
    (fieldsOfList [("level", .intV 30), ("password", .strV "s")])
    (fieldsOfList [("level", .intV 30), ("password", .strV "[REDACTED]")])
    (by decide)

/-- Claim C4: one interceptor invocation fails (the error propagates
synchronously to the log-call site, nothing is forwarded — `none`)
exactly when `JSON.stringify` of the payload throws or the
`globalReplace` output fails to `JSON.parse`; otherwise the redacted
record is forwarded to the original `_emit` exactly once (`some`, whose
single value is the forwarded record). -/
theorem emit_error_propagation (cfg : RedactOptions) (record : JsFields) :
    (emit cfg record = none ↔
      stringifyTree (.objV (restFields record)) = none ∨
        ∃ s, stringifyTree (.objV (restFields record)) = some s ∧
          parseTree (grOf cfg s) = none) ∧
    (∀ out, emit cfg record = some out →
      ∃ s t, stringifyTree (.objV (restFields record)) = some s ∧
        parseTree (grOf cfg s) = some t ∧
        out = assignFields record (srcFields (redactTree cfg.paths cfg.censor t))) := by
  constructor
  · unfold emit
    cases hs : stringifyTree (.objV (restFields record)) with
    | none => simp
    | some s =>
      cases hp : parseTree (grOf cfg s) with
      | none => simp [hp]
      | some t => simp [hp, loggerRedact, fastRedactFn]
  · exact fun _ h => emit_some_shape h

/-- Claim C5: no payload field is dropped by the interceptor — any key
present in the record before interception is still present in the
forwarded record (stated, as the claim does, for keys no rule targets;
the proof does not even need that hypothesis, since redaction replaces
values and never removes keys). -/
theorem emit_no_field_dropped (cfg : RedactOptions) (record out : JsFields) (k : String)
    (hrule : [k] ∉ cfg.paths) (hout : emit cfg record = some out)
    (hmem : memKeyF k record = true) : memKeyF k out = true := by
  obtain ⟨s, t, _, _, hshape⟩ := emit_some_shape hout
  rw [hshape]
  exact memKeyF_assignFields_left _ record hmem

/-- Witness for C5: a record with an untargeted field `user` next to a
targeted one keeps the `user` key. -/
theorem emit_no_field_dropped_witness :
    memKeyF "user"
      (assignFields (fieldsOfList [("user", .strV "a"), ("password", .strV "s")])
        (srcFields (redactTree [["password"]] "[REDACTED]"
          (.objV (fieldsOfList [("user", .strV "a"), ("password", .strV "s")]))))) = true :=
  emit_no_field_dropped { paths := [["password"]] }
    (fieldsOfList [("user", .strV "a"), ("password", .strV "s")])
    (assignFields (fieldsOfList [("user", .strV "a"), ("password", .strV "s")])
      (srcFields (redactTree [["password"]] "[REDACTED]"
        (.objV (fieldsOfList [("user", .strV "a"), ("password", .strV "s")])))))
    "user" (by decide) (by decide) (by decide)

/-- Claim C10: the factory compiles fast-redact with `serialize` forced
to `false` by the spread-then-override construction, so the caller's
`serialize` setting is unobservable and the compiled redactor always
returns the structured value (never the serialized text a
`serialize:true` compilation would return). -/
theorem loggerRedact_serialize_false (cfg : RedactOptions) (v : JsVal) :
    loggerRedact cfg v = .asVal (redactTree cfg.paths cfg.censor v) ∧
    loggerRedact { cfg with serialize := true } v = loggerRedact { cfg with serialize := false } v ∧
    fastRedactFn { cfg with serialize := true } v
      = .asText (stringifyTree (redactTree cfg.paths cfg.censor v)) := by
  refine ⟨?_, ?_, ?_⟩ <;> simp [loggerRedact, fastRedactFn]

/-- Counterexample to claim C1 as stated: with a redaction rule set
whose `globalReplace` rewrites the serialized payload to an object
carrying a reserved key, the reserved `level` field of the record is
changed by the interceptor (30 before, 99 after). -/
theorem emit_reserved_counterexample :
    emit { globalReplace := some fun _ => "\x7b\"level\":99\x7d" }
        (fieldsOfList [("level", .intV 30), ("msg", .strV "hi")])
      = some (fieldsOfList [("level", .intV 99), ("msg", .strV "hi")]) ∧
    lookupF "level" (fieldsOfList [("level", .intV 30), ("msg", .strV "hi")]) = some (.intV 30) ∧
    lookupF "level" (fieldsOfList [("level", .intV 99), ("msg", .strV "hi")]) = some (.intV 99) ∧
    "level" ∈ reservedKeys := by
  exact ⟨by decide, by decide, by decide, by simp [reservedKeys]⟩

theorem digitVal_digitChar {n : Nat} (h : n < 10) : digitVal (digitChar n) = n := by
  interval_cases n <;> decide

theorem isDigitC_digitChar {n : Nat} (h : n < 10) : isDigitC (digitChar n) = true := by
  interval_cases n <;> decide

theorem natCharsGo_digits :
    ∀ fuel n, n < fuel → natCharsGo fuel n ≠ [] ∧ ∀ c ∈ natCharsGo fuel n, isDigitC c = true := by
  intro fuel
  induction fuel with
  | zero => omega
  | succ f ih =>
      intro n hn
      by_cases h10 : n < 10
      · simp [natCharsGo, h10, isDigitC_digitChar h10]
      · have hdiv : n / 10 < f := by
          have := Nat.div_lt_self (by omega : 0 < n) (by omega : 1 < 10)
          omega
        obtain ⟨hne, hdig⟩ := ih (n / 10) hdiv
        constructor
        · simp [natCharsGo, h10]
        · intro c hc
          simp [natCharsGo, h10] at hc
          rcases hc with hc | hc
          · exact hdig c hc
          · subst hc
            exact isDigitC_digitChar (by omega)

theorem digitsVal_append_one (ds : List Char) (d : Char) :
    digitsVal (ds ++ [d]) = 10 * digitsVal ds + digitVal d := by
  simp [digitsVal, List.foldl_append]

theorem digitsVal_natCharsGo : ∀ fuel n, n < fuel → digitsVal (natCharsGo fuel n) = n := by
  intro fuel
  induction fuel with
  | zero => omega
  | succ f ih =>
      intro n hn
      by_cases h10 : n < 10
      · simp [natCharsGo, h10, digitsVal, List.foldl, digitVal_digitChar h10]
      · have hdiv : n / 10 < f := by
          have := Nat.div_lt_self (by omega : 0 < n) (by omega : 1 < 10)
          omega
        rw [natCharsGo]
        simp only [h10, if_false]
        rw [digitsVal_append_one, ih (n / 10) hdiv, digitVal_digitChar (Nat.mod_lt n (by omega))]
        omega

theorem natChars_ne_nil (n : Nat) : natChars n ≠ [] :=
  (natCharsGo_digits (n + 1) n (by omega)).1

theorem natChars_digits (n : Nat) : ∀ c ∈ natChars n, isDigitC c = true :=
  (natCharsGo_digits (n + 1) n (by omega)).2

theorem digitsVal_natChars (n : Nat) : digitsVal (natChars n) = n :=
  digitsVal_natCharsGo (n + 1) n (by omega)

theorem spanDigits_exact :
    ∀ ds rest, (∀ c ∈ ds, isDigitC c = true) → noDigitHead rest = true →
      spanDigits (ds ++ rest) = (ds, rest) := by
  intro ds
  induction ds with
  | nil =>
      intro rest _ hr
      cases rest with
      | nil => simp [spanDigits]
      | cons c cs =>
          simp [noDigitHead] at hr
          simp [spanDigits, hr]
  | cons d ds' ih =>
      intro rest hds hr
      have hd : isDigitC d = true := hds d (by simp)
      have hrec := ih rest (fun c hc => hds c (by simp [hc])) hr
      simp [spanDigits, hd, List.append_eq, hrec]

theorem hexVal_hexDigitChar {n : Nat} (h : n < 16) : hexVal (hexDigitChar n) = some n := by
  interval_cases n <;> decide

theorem string_mk_data (s : String) : String.mk s.data = s := rfl

theorem parseStrBody_escList :
    ∀ (cs rest : List Char), parseStrBody (escList cs ++ '"' :: rest) = some (cs, rest)
  | [], rest => by
      rw [escList, List.nil_append, parseStrBody.eq_def]
      simp
  | c :: cs, rest => by
      have ih := parseStrBody_escList cs rest
      rw [escList, List.append_assoc]
      by_cases h1 : c = '"'
      · subst h1
        rw [show escChar '"' = ['\\', '"'] from rfl]
        simp only [List.cons_append, List.nil_append]
        rw [parseStrBody.eq_def]
        simp [ih]
      · by_cases h2 : c = '\\'
        · subst h2
          rw [show escChar '\\' = ['\\', '\\'] from rfl]
          simp only [List.cons_append, List.nil_append]
          rw [parseStrBody.eq_def]
          simp [ih]
        · by_cases h3 : c = Char.ofNat 10
          · subst h3
            rw [show escChar (Char.ofNat 10) = ['\\', 'n'] from rfl]
            simp only [List.cons_append, List.nil_append]
            rw [parseStrBody.eq_def]
            simp [ih]
          · by_cases h4 : c = Char.ofNat 9
            · subst h4
              rw [show escChar (Char.ofNat 9) = ['\\', 't'] from rfl]
              simp only [List.cons_append, List.nil_append]
              rw [parseStrBody.eq_def]
              simp [ih]
            · by_cases h5 : c = Char.ofNat 13
              · subst h5
                rw [show escChar (Char.ofNat 13) = ['\\', 'r'] from rfl]
                simp only [List.cons_append, List.nil_append]
                rw [parseStrBody.eq_def]
                simp [ih]
              · by_cases h6 : c = Char.ofNat 8
                · subst h6
                  rw [show escChar (Char.ofNat 8) = ['\\', 'b'] from rfl]
                  simp only [List.cons_append, List.nil_append]
                  rw [parseStrBody.eq_def]
                  simp [ih]
                · by_cases h7 : c = Char.ofNat 12
                  · subst h7
                    rw [show escChar (Char.ofNat 12) = ['\\', 'f'] from rfl]
                    simp only [List.cons_append, List.nil_append]
                    rw [parseStrBody.eq_def]
                    simp [ih]
                  · by_cases h8 : c.toNat < 32
                    · have hhi := hexVal_hexDigitChar (show c.toNat / 16 < 16 by omega)
                      have hlo := hexVal_hexDigitChar (show c.toNat % 16 < 16 by omega)
                      have heq : escChar c =
                          ['\\', 'u', '0', '0', hexDigitChar (c.toNat / 16),
                            hexDigitChar (c.toNat % 16)] := by
                        simp [escChar, h1, h2, h3, h4, h5, h6, h7, h8]
                      have hz : hexVal '0' = some 0 := by decide
                      have hdm : 16 * (c.toNat / 16) + c.toNat % 16 = c.toNat :=
                        Nat.div_add_mod _ 16
                      rw [heq]
                      simp only [List.cons_append, List.nil_append]
                      rw [parseStrBody.eq_def]
                      simp [hhi, hlo, ih, hz, hdm, Char.ofNat_toNat]
                    · have heq : escChar c = [c] := by
                        simp [escChar, h1, h2, h3, h4, h5, h6, h7, h8]
                      rw [heq]
                      simp only [List.cons_append, List.nil_append]
                      rw [parseStrBody.eq_def]
                      simp [h1, h2, ih]

theorem digit_ne_special {c : Char} (h : isDigitC c = true) :
    ¬c = 'n' ∧ ¬c = 't' ∧ ¬c = 'f' ∧ ¬c = '"' ∧ ¬c = '-' := by
  refine ⟨?_, ?_, ?_, ?_, ?_⟩ <;> intro he <;> subst he <;> exact absurd h (by decide)

theorem isDigitC_ne_rbracket {c : Char} (h : isDigitC c = true) : ¬c = ']' := by
  intro he
  subst he
  exact absurd h (by decide)

theorem serVal_head : ∀ (v : JsVal) (cs : List Char), serVal v = some cs →
    ∃ c cs', cs = c :: cs' ∧ ¬c = ']' := by
  intro v cs h
  cases v with
  | undef => cases h
  | bigV n => cases h
  | null => exact ⟨'n', ['u', 'l', 'l'], by simp [serVal] at h; simp [← h], by decide⟩
  | boolV b =>
      cases b with
      | true => exact ⟨'t', ['r', 'u', 'e'], by simp [serVal] at h; simp [← h], by decide⟩
      | false => exact ⟨'f', ['a', 'l', 's', 'e'], by simp [serVal] at h; simp [← h], by decide⟩
  | strV s =>
      refine ⟨'"', escList s.data ++ ['"'], ?_, by decide⟩
      simp [serVal, strChars] at h
      simp [← h]
  | intV i =>
      simp [serVal, intChars] at h
      by_cases hneg : i < 0
      · rw [if_pos hneg] at h
        exact ⟨'-', natChars i.natAbs, by simp [← h], by decide⟩
      · rw [if_neg hneg] at h
        obtain ⟨c, cs', hcons⟩ := List.exists_cons_of_ne_nil (natChars_ne_nil i.toNat)
        have hdig : isDigitC c = true := natChars_digits i.toNat c (by simp [hcons])
        exact ⟨c, cs', by rw [← h, hcons], isDigitC_ne_rbracket hdig⟩
  | arrV xs =>
      cases hse : serItems xs with
      | none => simp [serVal, hse] at h
      | some es =>
          simp [serVal, hse] at h
          exact ⟨'[', joinComma es ++ [']'], by simp [← h], by decide⟩
  | objV fs =>
      cases hse : serEntries fs with
      | none => simp [serVal, hse] at h
      | some es =>
          simp [serVal, hse] at h
          exact ⟨lbraceC, joinComma es ++ [rbraceC], by simp [← h], by decide⟩

theorem serItems_nil : ∀ (xs : JsArr), serItems xs = some [] → xs = .nil := by
  intro xs h
  cases xs with
  | nil => rfl
  | cons v t =>
      simp [serItems] at h
      by_cases hv : v = .undef
      · rw [if_pos hv] at h
        cases hst : serItems t with
        | none => rw [hst] at h; cases h
        | some est => rw [hst] at h; cases h
      · rw [if_neg hv] at h
        cases hsv : serVal v with
        | none => rw [hsv] at h; cases h
        | some e =>
            rw [hsv] at h
            cases hst : serItems t with
            | none => rw [hst] at h; cases h
            | some est => rw [hst] at h; cases h

theorem serEntries_nil_iff : ∀ (fs : JsFields) (es : List (List Char)),
    serEntries fs = some es → (es = [] ↔ stripFields fs = .nil)
  | .nil, es => by
      intro h
      simp [serEntries] at h
      simp [← h, stripFields]
  | .cons k v t, es => by
      intro h
      by_cases hv : v = .undef
      · rw [serEntries, if_pos hv] at h
        rw [stripFields.eq_def]
        simp [hv]
        exact serEntries_nil_iff t es h
      · rw [serEntries, if_neg hv] at h
        cases hsv : serVal v with
        | none => rw [hsv] at h; cases h
        | some e =>
            rw [hsv] at h
            cases hst : serEntries t with
            | none => rw [hst] at h; cases h
            | some est =>
                rw [hst] at h
                simp at h
                rw [stripFields.eq_def]
                simp [hv, ← h]

theorem serEntries_head : ∀ (fs : JsFields) (e : List Char) (est : List (List Char)),
    serEntries fs = some (e :: est) → ∃ k ev, e = strChars k ++ ':' :: ev
  | .nil, e, est => by intro h; simp [serEntries] at h
  | .cons k v t, e, est => by
      intro h
      by_cases hv : v = .undef
      · rw [serEntries, if_pos hv] at h
        exact serEntries_head t e est h
      · rw [serEntries, if_neg hv] at h
        cases hsv : serVal v with
        | none => rw [hsv] at h; cases h
        | some ev =>
            rw [hsv] at h
            cases hst : serEntries t with
            | none => rw [hst] at h; cases h
            | some est' =>
                rw [hst] at h
                simp at h
                exact ⟨k, ev, h.1.symm⟩

theorem noDigitHead_cons {c : Char} (h : isDigitC c = false) (tl : List Char) :
    noDigitHead (c :: tl) = true := by simp [noDigitHead, h]

theorem needV_pos : ∀ v : JsVal, 1 ≤ needV v := by
  intro v; cases v <;> simp [needV]

theorem needA_pos : ∀ xs : JsArr, 1 ≤ needA xs := by
  intro xs; cases xs <;> simp [needA]

theorem needF_pos : ∀ fs : JsFields, 1 ≤ needF fs
  | .nil => by simp [needF]
  | .cons k v t => by
      by_cases hv : v = .undef
      · rw [needF.eq_def]
        simpa [hv] using needF_pos t
      · rw [needF.eq_def]
        simp [hv]

theorem joinComma_one (e : List Char) : joinComma [e] = e := rfl

theorem joinComma_two (e e2 : List Char) (es : List (List Char)) :
    joinComma (e :: e2 :: es) = e ++ ',' :: joinComma (e2 :: es) := rfl

theorem joinComma_head_append (c₀ : Char) (e'' : List Char) (est : List (List Char))
    (X : List Char) : ∃ Y, joinComma ((c₀ :: e'') :: est) ++ X = c₀ :: Y := by
  cases est with
  | nil => exact ⟨e'' ++ X, by simp [joinComma_one]⟩
  | cons e2 es2 => exact ⟨e'' ++ ',' :: (joinComma (e2 :: es2) ++ X), by simp [joinComma_two]⟩

theorem serItems_cons_shape {v : JsVal} {t : JsArr} {es : List (List Char)}
    (h : serItems (.cons v t) = some es) :
    ∃ e est, es = e :: est ∧ serItems t = some est ∧
      ((v = .undef ∧ e = ['n', 'u', 'l', 'l']) ∨ (¬v = .undef ∧ serVal v = some e)) := by
  by_cases hv : v = .undef
  · rw [serItems, if_pos hv] at h
    cases hst : serItems t with
    | none => rw [hst] at h; cases h
    | some est =>
        rw [hst] at h
        simp at h
        exact ⟨['n', 'u', 'l', 'l'], est, h.symm, rfl, Or.inl ⟨hv, rfl⟩⟩
  · rw [serItems, if_neg hv] at h
    cases hsv : serVal v with
    | none => rw [hsv] at h; cases h
    | some e =>
        rw [hsv] at h
        cases hst : serItems t with
        | none => rw [hst] at h; cases h
        | some est =>
            rw [hst] at h
            simp at h
            exact ⟨e, est, h.symm, rfl, Or.inr ⟨hv, rfl⟩⟩

theorem item_head {v : JsVal} {e : List Char}
    (h : (v = .undef ∧ e = ['n', 'u', 'l', 'l']) ∨ (¬v = .undef ∧ serVal v = some e)) :
    ∃ c₀ e'', e = c₀ :: e'' ∧ ¬c₀ = ']' := by
  rcases h with ⟨_, rfl⟩ | ⟨_, hsv⟩
  · exact ⟨'n', ['u', 'l', 'l'], rfl, by decide⟩
  · exact serVal_head v e hsv

theorem serEntries_cons_shape {k : String} {v : JsVal} {t : JsFields} {es : List (List Char)}
    (hv : ¬v = .undef) (h : serEntries (.cons k v t) = some es) :
    ∃ ev est, es = (strChars k ++ ':' :: ev) :: est ∧ serVal v = some ev ∧
      serEntries t = some est := by
  rw [serEntries, if_neg hv] at h
  cases hsv : serVal v with
  | none => rw [hsv] at h; cases h
  | some ev =>
      rw [hsv] at h
      cases hst : serEntries t with
      | none => rw [hst] at h; cases h
      | some est =>
          rw [hst] at h
          simp at h
          exact ⟨ev, est, h.symm, rfl, rfl⟩

mutual

theorem parse_serVal : ∀ (v : JsVal) (fuel : Nat) (cs rest : List Char),
    serVal v = some cs → needV v ≤ fuel → noDigitHead rest = true →
    parseVal fuel (cs ++ rest) = some (stripVal v, rest)
  | .undef, fuel, cs, rest => by intro h _ _; simp [serVal] at h
  | .bigV n, fuel, cs, rest => by intro h _ _; simp [serVal] at h
  | .null, fuel, cs, rest => by
      intro h hf hr
      simp [serVal] at h
      subst h
      simp [needV] at hf
      obtain ⟨f, rfl⟩ : ∃ f, fuel = f + 1 := ⟨fuel - 1, by omega⟩
      simp [parseVal, stripVal]
  | .boolV true, fuel, cs, rest => by
      intro h hf hr
      simp [serVal] at h
      subst h
      simp [needV] at hf
      obtain ⟨f, rfl⟩ : ∃ f, fuel = f + 1 := ⟨fuel - 1, by omega⟩
      simp [parseVal, stripVal]
  | .boolV false, fuel, cs, rest => by
      intro h hf hr
      simp [serVal] at h
      subst h
      simp [needV] at hf
      obtain ⟨f, rfl⟩ : ∃ f, fuel = f + 1 := ⟨fuel - 1, by omega⟩
      simp [parseVal, stripVal]
  | .intV i, fuel, cs, rest => by
      intro h hf hr
      simp [serVal] at h
      subst h
      simp [needV] at hf
      obtain ⟨f, rfl⟩ : ∃ f, fuel = f + 1 := ⟨fuel - 1, by omega⟩
      by_cases hneg : i < 0
      · rw [intChars, if_pos hneg]
        have hspan := spanDigits_exact (natChars i.natAbs) rest (natChars_digits _) hr
        obtain ⟨d, ds', hcons⟩ := List.exists_cons_of_ne_nil (natChars_ne_nil i.natAbs)
        have hval : -(digitsVal (natChars i.natAbs) : Int) = i := by
          rw [digitsVal_natChars]
          omega
        rw [hcons] at hspan hval
        rw [hcons]
        rw [List.cons_append] at hspan
        simp [parseVal, hspan, stripVal, hval]
      · rw [intChars, if_neg hneg]
        have hspan := spanDigits_exact (natChars i.toNat) rest (natChars_digits _) hr
        obtain ⟨d, ds', hcons⟩ := List.exists_cons_of_ne_nil (natChars_ne_nil i.toNat)
        have hdig : isDigitC d = true := natChars_digits i.toNat d (by simp [hcons])
        obtain ⟨hn1, hn2, hn3, hn4, hn5⟩ := digit_ne_special hdig
        have hval : (digitsVal (natChars i.toNat) : Int) = i := by
          rw [digitsVal_natChars]
          omega
        rw [hcons] at hspan hval
        rw [hcons]
        simp only [List.cons_append, parseVal, hn1, hn2, hn3, hn4, hn5, hdig, if_false, if_true]
        rw [← List.cons_append, hspan]
        simp [stripVal, hval]
  | .strV s, fuel, cs, rest => by
      intro h hf hr
      simp [serVal] at h
      subst h
      simp [needV] at hf
      obtain ⟨f, rfl⟩ : ∃ f, fuel = f + 1 := ⟨fuel - 1, by omega⟩
      have hsb := parseStrBody_escList s.data rest
      simp [strChars, parseVal, List.append_assoc, hsb, stripVal, string_mk_data]
  | .arrV xs, fuel, cs, rest => by
      intro h hf hr
      cases hse : serItems xs with
      | none => simp [serVal, hse] at h
      | some es =>
          simp [serVal, hse] at h
          subst h
          simp [needV] at hf
          obtain ⟨f, rfl⟩ : ∃ f, fuel = f + 1 := ⟨fuel - 1, by omega⟩
          have hfA : needA xs ≤ f := by omega
          cases xs with
          | nil =>
              simp [serItems] at hse
              subst hse
              simp [parseVal, joinComma, stripVal, stripArr,
                show isDigitC '[' = false from by decide]
          | cons v t =>
              obtain ⟨e, est, rfl, hst, hitem⟩ := serItems_cons_shape hse
              obtain ⟨c₀, e'', rfl, hc0⟩ := item_head hitem
              obtain ⟨Y, hY⟩ := joinComma_head_append c₀ e'' est (']' :: rest)
              have hrec := (parse_serItems (.cons v t) f ((c₀ :: e'') :: est) rest hse hfA).resolve_left
                (by simp)
              rw [hY] at hrec
              simp only [List.cons_append, List.append_assoc, List.singleton_append,
                List.nil_append]
              rw [hY]
              simp [parseVal, hc0, show isDigitC '[' = false from by decide, hrec, stripVal]
  | .objV fs, fuel, cs, rest => by
      intro h hf hr
      cases hse : serEntries fs with
      | none => simp [serVal, hse] at h
      | some es =>
          simp [serVal, hse] at h
          subst h
          simp [needV] at hf
          obtain ⟨f, rfl⟩ : ∃ f, fuel = f + 1 := ⟨fuel - 1, by omega⟩
          have hfF : needF fs ≤ f := by omega
          cases es with
          | nil =>
              have hnil : stripFields fs = .nil := (serEntries_nil_iff fs [] hse).mp rfl
              simp [parseVal, joinComma, stripVal, hnil, lbraceC, rbraceC,
                show isDigitC (Char.ofNat 123) = false from by decide]
          | cons e est =>
              obtain ⟨k, ev, rfl⟩ := serEntries_head fs e est hse
              have hent : strChars k ++ ':' :: ev = '"' :: (escList k.data ++ '"' :: ':' :: ev) := by
                simp [strChars]
              rw [hent] at hse ⊢
              obtain ⟨Y, hY⟩ :=
                joinComma_head_append '"' (escList k.data ++ '"' :: ':' :: ev) est (rbraceC :: rest)
              have hne : ¬stripFields fs = .nil := by
                intro hnil
                have := (serEntries_nil_iff fs _ hse).mpr hnil
                simp at this
              have hrec := (parse_serEntries fs f _ rest hse hfF).resolve_left hne
              rw [hY] at hrec
              simp only [List.cons_append, List.append_assoc, List.singleton_append,
                List.nil_append]
              rw [hY]
              have hq : ¬('"' : Char) = Char.ofNat 125 := by decide
              simp [parseVal, lbraceC, rbraceC, hq, hrec, stripVal,
                show isDigitC (Char.ofNat 123) = false from by decide]

theorem parse_serItems : ∀ (xs : JsArr) (fuel : Nat) (es : List (List Char)) (rest : List Char),
    serItems xs = some es → needA xs ≤ fuel →
    xs = .nil ∨ parseItems fuel (joinComma es ++ ']' :: rest) = some (stripArr xs, rest)
  | .nil, fuel, es, rest => fun _ _ => Or.inl rfl
  | .cons v t, fuel, es, rest => by
      intro hser hfuel
      obtain ⟨e, est, rfl, hst, hitem⟩ := serItems_cons_shape hser
      right
      have hA : 1 + max (needV v) (needA t) ≤ fuel := by simpa [needA] using hfuel
      obtain ⟨f, rfl⟩ : ∃ f, fuel = f + 1 := ⟨fuel - 1, by omega⟩
      have hfv : needV v ≤ f := by omega
      have hft : needA t ≤ f := by omega
      have hf1 : 1 ≤ f := le_trans (needA_pos t) hft
      cases est with
      | nil =>
          have ht : t = .nil := serItems_nil t hst
          subst ht
          have hpv : parseVal f (e ++ ']' :: rest)
              = some (if v = .undef then .null else stripVal v, ']' :: rest) := by
            rcases hitem with ⟨hv, rfl⟩ | ⟨hv, hsv⟩
            · obtain ⟨f', rfl⟩ : ∃ f', f = f' + 1 := ⟨f - 1, by omega⟩
              simp [parseVal, hv]
            · rw [if_neg hv]
              exact parse_serVal v f e (']' :: rest) hsv hfv (noDigitHead_cons (by decide) rest)
          rw [joinComma_one]
          simp [parseItems, hpv, stripArr]
      | cons e2 est2 =>
          have htne : ¬t = .nil := by
            intro ht
            subst ht
            simp [serItems] at hst
          have hpv : parseVal f (e ++ ',' :: (joinComma (e2 :: est2) ++ ']' :: rest))
              = some (if v = .undef then .null else stripVal v,
                  ',' :: (joinComma (e2 :: est2) ++ ']' :: rest)) := by
            rcases hitem with ⟨hv, rfl⟩ | ⟨hv, hsv⟩
            · obtain ⟨f', rfl⟩ : ∃ f', f = f' + 1 := ⟨f - 1, by omega⟩
              simp [parseVal, hv]
            · rw [if_neg hv]
              exact parse_serVal v f e _ hsv hfv (noDigitHead_cons (by decide) _)
          have hrec := (parse_serItems t f (e2 :: est2) rest hst hft).resolve_left htne
          rw [joinComma_two]
          simp [List.append_assoc, parseItems, hpv, hrec, stripArr]

theorem parse_serEntries : ∀ (fs : JsFields) (fuel : Nat) (es : List (List Char)) (rest : List Char),
    serEntries fs = some es → needF fs ≤ fuel →
    stripFields fs = .nil ∨
      parseEntries fuel (joinComma es ++ rbraceC :: rest) = some (stripFields fs, rest)
  | .nil, fuel, es, rest => fun _ _ => Or.inl rfl
  | .cons k v t, fuel, es, rest => by
      intro hser hfuel
      by_cases hv : v = .undef
      · have hskip : serEntries (.cons k v t) = serEntries t := by
          rw [serEntries, if_pos hv]
        have hstrip : stripFields (.cons k v t) = stripFields t := by
          rw [stripFields.eq_def]
          simp [hv]
        have hfuel' : needF t ≤ fuel := by
          have : needF (.cons k v t) = needF t := by
            rw [needF.eq_def]
            simp [hv]
          omega
        rw [hstrip]
        exact parse_serEntries t fuel es rest (hskip ▸ hser) hfuel'
      · obtain ⟨ev, est, rfl, hsv, hst⟩ := serEntries_cons_shape hv hser
        right
        have hstrip : stripFields (.cons k v t) = .cons k (stripVal v) (stripFields t) := by
          rw [stripFields.eq_def]
          simp [hv]
        have hF : 1 + max (needV v) (needF t) ≤ fuel := by
          have : needF (.cons k v t) = 1 + max (needV v) (needF t) := by
            rw [needF.eq_def]
            simp [hv]
          omega
        obtain ⟨f, rfl⟩ : ∃ f, fuel = f + 1 := ⟨fuel - 1, by omega⟩
        have hfv : needV v ≤ f := by omega
        have hft : needF t ≤ f := by omega
        have hf1 : 1 ≤ f := le_trans (needF_pos t) hft
        have hent : strChars k ++ ':' :: ev = '"' :: (escList k.data ++ '"' :: ':' :: ev) := by
          simp [strChars]
        cases est with
        | nil =>
            have htnil : stripFields t = .nil := (serEntries_nil_iff t [] hst).mp rfl
            have hpv := parse_serVal v f ev (rbraceC :: rest) hsv hfv
              (noDigitHead_cons (by decide) rest)
            have hsb := parseStrBody_escList k.data (':' :: (ev ++ rbraceC :: rest))
            rw [joinComma_one, hent]
            simp only [List.cons_append, List.append_assoc, List.nil_append]
            rw [hstrip, htnil]
            simp only [rbraceC] at hsb hpv ⊢
            simp [parseEntries, hsb, hpv, string_mk_data, rbraceC]
        | cons e2 est2 =>
            have htne : ¬stripFields t = .nil := by
              intro hnil
              have := (serEntries_nil_iff t _ hst).mpr hnil
              simp at this
            have hpv := parse_serVal v f ev (',' :: (joinComma (e2 :: est2) ++ rbraceC :: rest))
              hsv hfv (noDigitHead_cons (by decide) _)
            have hsb := parseStrBody_escList k.data
              (':' :: (ev ++ ',' :: (joinComma (e2 :: est2) ++ rbraceC :: rest)))
            have hrec := (parse_serEntries t f (e2 :: est2) rest hst hft).resolve_left htne
            rw [joinComma_two, hent]
            simp only [List.cons_append, List.append_assoc, List.nil_append]
            rw [hstrip]
            simp only [rbraceC] at hsb hpv hrec ⊢
            simp [parseEntries, hsb, hpv, hrec, string_mk_data, rbraceC]

end

mutual

theorem needV_le : ∀ (v : JsVal) (cs : List Char), serVal v = some cs →
    needV v ≤ cs.length + 1
  | .undef, cs => by intro h; simp [serVal] at h
  | .bigV n, cs => by intro h; simp [serVal] at h
  | .null, cs => by intro h; simp [needV]
  | .boolV b, cs => by intro h; cases b <;> simp [needV]
  | .intV i, cs => by intro h; simp [needV]
  | .strV s, cs => by intro h; simp [needV]
  | .arrV xs, cs => by
      intro h
      cases hse : serItems xs with
      | none => simp [serVal, hse] at h
      | some es =>
          simp [serVal, hse] at h
          have hA := needA_le xs es hse
          subst h
          simp [needV, List.length_append]
          omega
  | .objV fs, cs => by
      intro h
      cases hse : serEntries fs with
      | none => simp [serVal, hse] at h
      | some es =>
          simp [serVal, hse] at h
          have hF := needF_le fs es hse
          subst h
          simp [needV, List.length_append]
          omega

theorem needA_le : ∀ (xs : JsArr) (es : List (List Char)), serItems xs = some es →
    needA xs ≤ (joinComma es).length + 2
  | .nil, es => by
      intro h
      simp [serItems] at h
      simp [← h, joinComma, needA]
  | .cons v t, es => by
      intro h
      obtain ⟨e, est, rfl, hst, hitem⟩ := serItems_cons_shape h
      obtain ⟨c₀, e'', rfl, _⟩ := item_head hitem
      have hbv : needV v ≤ (c₀ :: e'').length + 1 := by
        rcases hitem with ⟨hv, _⟩ | ⟨_, hsv⟩
        · subst hv; simp [needV]
        · exact needV_le v _ hsv
      have hbt := needA_le t est hst
      cases est with
      | nil =>
          simp only [joinComma_one]
          simp [joinComma] at hbt
          simp [needA, List.length_cons] at hbv ⊢
          omega
      | cons e2 est2 =>
          simp [joinComma_two, needA, List.length_append, List.length_cons] at hbv hbt ⊢
          omega

theorem needF_le : ∀ (fs : JsFields) (es : List (List Char)), serEntries fs = some es →
    needF fs ≤ (joinComma es).length + 2
  | .nil, es => by
      intro h
      simp [serEntries] at h
      simp [← h, joinComma, needF]
  | .cons k v t, es => by
      intro h
      by_cases hv : v = .undef
      · rw [serEntries, if_pos hv] at h
        have := needF_le t es h
        have heq : needF (.cons k v t) = needF t := by
          rw [needF.eq_def]
          simp [hv]
        omega
      · obtain ⟨ev, est, rfl, hsv, hst⟩ := serEntries_cons_shape hv h
        have hbv : needV v ≤ ev.length + 1 := needV_le v ev hsv
        have hbt := needF_le t est hst
        have hsc : 2 ≤ (strChars k).length := by
          simp [strChars, List.length_append]
        have heq : needF (.cons k v t) = 1 + max (needV v) (needF t) := by
          rw [needF.eq_def]
          simp [hv]
        cases est with
        | nil =>
            rw [heq]
            simp only [joinComma_one]
            simp [joinComma] at hbt
            simp [List.length_append, List.length_cons] at hbv hsc ⊢
            omega
        | cons e2 est2 =>
            rw [heq]
            simp [joinComma_two, List.length_append, List.length_cons] at hbv hbt hsc ⊢
            omega

end

theorem parseTree_stringifyTree {t : JsVal} {s : String} (h : stringifyTree t = some s) :
    parseTree s = some (stripVal t) := by
  cases hsv : serVal t with
  | none => rw [stringifyTree, hsv] at h; cases h
  | some cs =>
      rw [stringifyTree, hsv] at h
      simp at h
      subst h
      have hfuel : needV t ≤ cs.length + 1 := needV_le t cs hsv
      have hparse := parse_serVal t (cs.length + 1) cs [] hsv hfuel (by simp [noDigitHead])
      rw [List.append_nil] at hparse
      rw [parseTree]
      simp [hparse]

theorem memKeyF_congr_keys {k : String} {fs gs : JsFields} (h : keysF fs = keysF gs) :
    memKeyF k fs = memKeyF k gs := by
  cases hb : memKeyF k gs with
  | true =>
      exact (memKeyF_iff_keysF fs).mpr (h ▸ (memKeyF_iff_keysF gs).mp hb)
  | false =>
      cases hb' : memKeyF k fs with
      | false => rfl
      | true =>
          have := (memKeyF_iff_keysF gs).mpr (h ▸ (memKeyF_iff_keysF fs).mp hb')
          rw [this] at hb
          cases hb

/-- Claim C1 (amended): for every record and every redaction rule set
with no `globalReplace` configured — rule paths may freely name reserved
fields — the seven reserved fields `v, level, name, hostname, pid,
time, src` are unchanged by the interceptor, while `msg` is not
reserved and is carried, with its value, into the serialized / redacted
`rest` portion. (As stated originally the claim fails: a `globalReplace`
that rewrites the payload text into an object with a reserved top-level
key overwrites that reserved field; see the counterexample.) -/
theorem emit_preserves_reserved (cfg : RedactOptions) (record out : JsFields) (k : String)
    (hgr : cfg.globalReplace = none) (hk : k ∈ reservedKeys)
    (hout : emit cfg record = some out) :
    lookupF k out = lookupF k record ∧
    ("msg" ∈ reservedKeys → False) ∧
    lookupF "msg" (restFields record) = lookupF "msg" record := by
  obtain ⟨s, t, hs, hp, hshape⟩ := emit_some_shape hout
  have hc : reservedKeys.contains k = true := by simp [hk]
  have hid : grOf cfg s = s := by simp [grOf, hgr]
  rw [hid] at hp
  have hrt := parseTree_stringifyTree hs
  rw [hp] at hrt
  have ht : t = .objV (stripFields (restFields record)) := by
    have := Option.some_inj.mp hrt
    rw [this]
    simp [stripVal]
  obtain ⟨fs', hredact, hkeys⟩ :=
    redactTree_objV_keys cfg.censor cfg.paths (stripFields (restFields record))
  rw [ht, hredact] at hshape
  rw [show srcFields (.objV fs') = fs' from rfl] at hshape
  subst hshape
  refine ⟨?_, by simp [reservedKeys], lookupF_restFields (by decide) record⟩
  apply lookupF_assignFields_not_mem
  rw [memKeyF_congr_keys hkeys]
  cases hb : memKeyF k (stripFields (restFields record)) with
  | false => rfl
  | true =>
      have h3 := memKeyF_stripFields _ hb
      rw [memKeyF_restFields] at h3
      simp at h3
      exact (h3.2 hk).elim

/-- Witness for the amended C1: a rule set whose only path names the
reserved field `level` leaves the record's `level` untouched. -/
theorem emit_preserves_reserved_witness :
    lookupF "level" (fieldsOfList [("level", .intV 30), ("msg", .strV "hi")])
        = lookupF "level" (fieldsOfList [("level", .intV 30), ("msg", .strV "hi")]) ∧
    ("msg" ∈ reservedKeys → False) ∧
    lookupF "msg" (restFields (fieldsOfList [("level", .intV 30), ("msg", .strV "hi")]))
        = lookupF "msg" (fieldsOfList [("level", .intV 30), ("msg", .strV "hi")]) :=
  emit_preserves_reserved { paths := [["level"]] }
    (fieldsOfList [("level", .intV 30), ("msg", .strV "hi")])
    (fieldsOfList [("level", .intV 30), ("msg", .strV "hi")])
    "level" rfl (by simp [reservedKeys]) (by decide)

/-- Witness for C4: the failure equivalence applied at a record whose
payload holds a `BigInt` (serialization throws, nothing forwarded). -/
theorem emit_error_propagation_witness :
    ∃ s t, stringifyTree (.objV (restFields (fieldsOfList [("level", .intV 30), ("password", .strV "s")]))) = some s ∧
      parseTree (grOf { paths := [["password"]] } s) = some t ∧
      fieldsOfList [("level", .intV 30), ("password", .strV "[REDACTED]")]
        = assignFields (fieldsOfList [("level", .intV 30), ("password", .strV "s")])
            (srcFields (redactTree [["password"]] "[REDACTED]" t)) :=
  (emit_error_propagation { paths := [["password"]] }
      (fieldsOfList [("level", .intV 30), ("password", .strV "s")])).2
    (fieldsOfList [("level", .intV 30), ("password", .strV "[REDACTED]")]) (by decide)

/-- Claim C6: the `req` serializer passes through any value without a
truthy `connection` property (in particular `null` and `undefined`
inputs), and otherwise returns exactly the seven-field summary object
`«{method, url, query, body, headers, remoteAddress, remotePort}»`,
where `url` prefers the `originalUrl` override over the raw `url`
("lacks a connection property" is formalized as JS truthiness of
`req.connection`, matching the guard `!req || !req.connection`). -/
theorem serializeReq_spec (req : JsVal) :
    serializeReq req =
      (if (jsTruthy req && jsTruthy (jsGet req "connection")) = true then
        .objV (fieldsOfList
          [("method", jsGet req "method"),
           ("url", jsOr (jsGet req "originalUrl") (jsGet req "url")),
           ("query", jsGet req "query"),
           ("body", jsGet req "body"),
           ("headers", jsGet req "headers"),
           ("remoteAddress", jsGet (jsGet req "connection") "remoteAddress"),
           ("remotePort", jsGet (jsGet req "connection") "remotePort")])
      else req) ∧
    serializeReq .null = .null ∧ serializeReq .undef = .undef := by
  refine ⟨?_, rfl, rfl⟩
  by_cases h1 : jsTruthy req = true
  · by_cases h2 : jsTruthy (jsGet req "connection") = true
    · simp [serializeReq, h1, h2]
    · simp at h2
      simp [serializeReq, h1, h2]
  · simp at h1
    simp [serializeReq, h1]

/-- Claim C7: the `res` serializer passes through any value without a
truthy `statusCode` (in particular `null` and `undefined`), and
otherwise returns exactly `«{statusCode, header}»` where `header` is the
response's rendered header block `res._header`. -/
theorem serializeRes_spec (res : JsVal) :
    serializeRes res =
      (if (jsTruthy res && jsTruthy (jsGet res "statusCode")) = true then
        .objV (fieldsOfList
          [("statusCode", jsGet res "statusCode"),
           ("header", jsGet res "_header")])
      else res) ∧
    serializeRes .null = .null ∧ serializeRes .undef = .undef := by
  refine ⟨?_, rfl, rfl⟩
  by_cases h1 : jsTruthy res = true
  · by_cases h2 : jsTruthy (jsGet res "statusCode") = true
    · simp [serializeRes, h1, h2]
    · simp at h2
      simp [serializeRes, h1, h2]
  · simp at h1
    simp [serializeRes, h1]

/-- Claim C8: `createLogger` selects its configuration from the
environment — when `GAE_SERVICE || K_SERVICE` is truthy (set to a
non-empty value, per JS truthiness) the logger is named after that
value and gets the single structured log-shipping stream; otherwise it
is named `default` with the single human-readable stream; in both cases
the effective level is `level || LOG_LEVEL || 'info'`. -/
theorem createLoggerShape_spec (env : Env) (level : Option String) :
    (createLoggerShape env level).name
      = (if strTruthy (getGoogleServiceName env) = true
          then (getGoogleServiceName env).getD "default" else "default") ∧
    (createLoggerShape env level).streams
      = [if strTruthy (getGoogleServiceName env) = true
          then .cloudLogging (effectiveLevel env level)
          else .prettyConsole (effectiveLevel env level)] ∧
    effectiveLevel env level
      = (if strTruthy level = true then level.getD "info"
         else if strTruthy env.logLevel = true then env.logLevel.getD "info" else "info") := by
  refine ⟨?_, ?_, ?_⟩
  · cases hg : getGoogleServiceName env with
    | none => simp [createLoggerShape, hg, strTruthy]
    | some s =>
        by_cases hs : s = ""
        · subst hs
          simp [createLoggerShape, hg, strTruthy]
        · simp [createLoggerShape, hg, strTruthy, hs]
  · cases hg : getGoogleServiceName env with
    | none => simp [createLoggerShape, hg, strTruthy]
    | some s =>
        by_cases hs : s = ""
        · subst hs
          simp [createLoggerShape, hg, strTruthy]
        · simp [createLoggerShape, hg, strTruthy, hs]
  · cases level with
    | none =>
        cases hl : env.logLevel with
        | none => simp [effectiveLevel, jsOrStr, hl, strTruthy]
        | some s =>
            by_cases hs : s = ""
            · subst hs
              simp [effectiveLevel, jsOrStr, hl, strTruthy]
            · simp [effectiveLevel, jsOrStr, hl, strTruthy, hs]
    | some s =>
        by_cases hs : s = ""
        · subst hs
          cases hl : env.logLevel with
          | none => simp [effectiveLevel, jsOrStr, hl, strTruthy]
          | some s' =>
              by_cases hs' : s' = ""
              · subst hs'
                simp [effectiveLevel, jsOrStr, hl, strTruthy]
              · simp [effectiveLevel, jsOrStr, hl, strTruthy, hs']
        · simp [effectiveLevel, jsOrStr, strTruthy, hs]

/-- Counterexample to claim C9 as stated: with `K_SERVICE = fn`, a
`requestUrl` of `"x"` does not carry the `/fn` prefix, yet the emitted
`httpRequest.requestUrl` is `"x"` unchanged, not `"/fnx"` — the rewrite
additionally requires the URL to start with `/`. -/
theorem middleware_url_counterexample :
    lookupF "httpRequest"
        (emitRequestLogRecord (some "fn") .null .null
          (fieldsOfList [("requestUrl", .strV "x")]) "tr" none none)
      = some (.objV (fieldsOfList [("requestUrl", .strV "x")])) ∧
    strLeads "x" "/fn" = false ∧
    ¬("x" : String) = "/fn" ++ "x" := by
  exact ⟨by decide, by decide, by decide⟩

/-- Claim C9 (amended): the middleware's completion record carries the
`httpRequest` field together with the trace, span and sampled keys
exactly when `K_SERVICE` is truthy (set to a non-empty value), and in
that case `httpRequest` is the spread of the original with `requestUrl`
rewritten to carry the `/functionName` prefix exactly when it is a
string starting with `/` that does not already start with that prefix;
any other `requestUrl` (including an absent one) is carried unchanged.
(As stated originally the rewrite condition omitted the leading-`/`
requirement; see the counterexample.) -/
theorem emitRequestLogRecord_spec (ks : Option String) (req res : JsVal) (hr : JsFields)
    (trace : String) (span : Option String) (sampled : Option Bool) :
    (memKeyF "httpRequest" (emitRequestLogRecord ks req res hr trace span sampled)
        = strTruthy ks) ∧
    (memKeyF traceKeyS (emitRequestLogRecord ks req res hr trace span sampled)
        = strTruthy ks) ∧
    (memKeyF spanKeyS (emitRequestLogRecord ks req res hr trace span sampled)
        = strTruthy ks) ∧
    (memKeyF sampledKeyS (emitRequestLogRecord ks req res hr trace span sampled)
        = strTruthy ks) ∧
    (lookupF "httpRequest" (emitRequestLogRecord ks req res hr trace span sampled)
      = (if strTruthy ks = true then
          some (.objV (setKeyF hr "requestUrl"
            (rewriteRequestUrl (ks.getD "") ((lookupF "requestUrl" hr).getD .undef))))
        else none)) ∧
    (∀ fn url, rewriteRequestUrl fn (.strV url)
      = .strV (if (strLeads url "/" && !strLeads url ("/" ++ fn)) = true
          then "/" ++ fn ++ url else url)) ∧
    (∀ fn, rewriteRequestUrl fn .undef = .undef) := by
  have hrw : ∀ fn url, rewriteRequestUrl fn (.strV url)
      = .strV (if (strLeads url "/" && !strLeads url ("/" ++ fn)) = true
          then "/" ++ fn ++ url else url) := by
    intro fn url
    by_cases hc : (strLeads url "/" && !strLeads url ("/" ++ fn)) = true
    · simp [rewriteRequestUrl, hc]
    · rw [Bool.not_eq_true] at hc
      simp [rewriteRequestUrl, hc]
  refine ⟨?_, ?_, ?_, ?_, ?_, hrw, fun fn => rfl⟩ <;>
    cases ks with
    | none =>
        simp [emitRequestLogRecord, fieldsOfList, memKeyF, lookupF, strTruthy,
          traceKeyS, spanKeyS, sampledKeyS]
    | some fn =>
        by_cases hfn : fn = ""
        · subst hfn
          simp [emitRequestLogRecord, fieldsOfList, memKeyF, lookupF, strTruthy,
            assignFields, setKeyF, traceKeyS, spanKeyS, sampledKeyS]
        · simp [emitRequestLogRecord, fieldsOfList, memKeyF, lookupF, strTruthy, hfn,
            assignFields, setKeyF, traceKeyS, spanKeyS, sampledKeyS]

theorem cellsGet_set_ne : ∀ (cells : List (Nat × HObj)) (a b : Nat) (o : HObj), ¬a = b →
    cellsGet (cellsSet cells a o) b = cellsGet cells b := by
  intro cells a b o hne
  induction cells with
  | nil => rfl
  | cons c cs ih =>
      by_cases hc : c.1 = a
      · rw [cellsSet, if_pos hc, cellsGet, cellsGet]
        simp [hne, hc]
      · rw [cellsSet, if_neg hc, cellsGet, cellsGet, ih]

theorem cellsGet_set_self : ∀ (cells : List (Nat × HObj)) (a : Nat) (o o' : HObj),
    cellsGet cells a = some o' → cellsGet (cellsSet cells a o) a = some o := by
  intro cells a o o' h
  induction cells with
  | nil => cases h
  | cons c cs ih =>
      by_cases hc : c.1 = a
      · rw [cellsSet, if_pos hc, cellsGet]
        simp
      · rw [cellsGet, if_neg hc] at h
        rw [cellsSet, if_neg hc, cellsGet, if_neg hc, ih h]

theorem cellsGet_mem : ∀ (cells : List (Nat × HObj)) (a : Nat) (o : HObj),
    cellsGet cells a = some o → (a, o) ∈ cells := by
  intro cells a o h
  induction cells with
  | nil => cases h
  | cons c cs ih =>
      by_cases hc : c.1 = a
      · rw [cellsGet, if_pos hc] at h
        obtain ⟨c1, c2⟩ := c
        simp at hc h
        subst hc
        subst h
        exact List.mem_cons_self _ _
      · rw [cellsGet, if_neg hc] at h
        exact List.mem_cons_of_mem _ (ih h)

theorem mem_cellsSet : ∀ (cells : List (Nat × HObj)) (a : Nat) (o : HObj) (c : Nat × HObj),
    c ∈ cellsSet cells a o → c ∈ cells ∨ (c = (a, o) ∧ ∃ o', (a, o') ∈ cells) := by
  intro cells a o c h
  induction cells with
  | nil => cases h
  | cons c' cs ih =>
      by_cases hc : c'.1 = a
      · rw [cellsSet, if_pos hc] at h
        rcases List.mem_cons.mp h with h | h
        · refine Or.inr ⟨h, c'.2, ?_⟩
          have : c' = (a, c'.2) := by
            obtain ⟨c1, c2⟩ := c'
            simp at hc
            rw [hc]
          rw [← this]
          exact List.mem_cons_self _ _
        · exact Or.inl (List.mem_cons_of_mem _ h)
      · rw [cellsSet, if_neg hc] at h
        rcases List.mem_cons.mp h with h | h
        · exact Or.inl (by rw [h]; exact List.mem_cons_self _ _)
        · rcases ih h with h | ⟨h1, o', h2⟩
          · exact Or.inl (List.mem_cons_of_mem _ h)
          · exact Or.inr ⟨h1, o', List.mem_cons_of_mem _ h2⟩

theorem cellsGet_append_left : ∀ (cells l : List (Nat × HObj)) (a : Nat) (o : HObj),
    cellsGet cells a = some o → cellsGet (cells ++ l) a = some o := by
  intro cells l a o h
  induction cells with
  | nil => cases h
  | cons c cs ih =>
      by_cases hc : c.1 = a
      · rw [cellsGet, if_pos hc] at h
        rw [List.cons_append, cellsGet, if_pos hc]
        exact h
      · rw [cellsGet, if_neg hc] at h
        rw [List.cons_append, cellsGet, if_neg hc]
        exact ih h

theorem cellsGet_none_append : ∀ (cells l : List (Nat × HObj)) (a : Nat),
    cellsGet cells a = none → cellsGet (cells ++ l) a = cellsGet l a := by
  intro cells l a h
  induction cells with
  | nil => rfl
  | cons c cs ih =>
      by_cases hc : c.1 = a
      · rw [cellsGet, if_pos hc] at h
        cases h
      · rw [cellsGet, if_neg hc] at h
        rw [List.cons_append, cellsGet, if_neg hc]
        exact ih h

theorem Heap.get_set_ne {h : Heap} {a b : Nat} {o : HObj} (hne : ¬a = b) :
    (h.set a o).get b = h.get b :=
  cellsGet_set_ne h.cells a b o hne

theorem Heap.get_set_self {h : Heap} {a : Nat} {o o' : HObj} (hg : h.get a = some o') :
    (h.set a o).get a = some o :=
  cellsGet_set_self h.cells a o o' hg

theorem Heap.set_next (h : Heap) (a : Nat) (o : HObj) : (h.set a o).next = h.next := rfl

theorem Heap.set_WF {h : Heap} (hWF : h.WF) (a : Nat) (o : HObj) : (h.set a o).WF := by
  intro c hc
  rcases mem_cellsSet h.cells a o c hc with h1 | ⟨h1, o', h2⟩
  · exact hWF c h1
  · have := hWF _ h2
    simp at this
    subst h1
    simpa [Heap.set] using this

theorem Heap.alloc_preserve {h : Heap} {a : Nat} {o : HObj} (o' : HObj)
    (hg : h.get a = some o) : (h.alloc o').1.get a = some o :=
  cellsGet_append_left h.cells _ a o hg

theorem Heap.alloc_get_new {h : Heap} (hWF : h.WF) (o : HObj) :
    (h.alloc o).1.get h.next = some o := by
  have hnone : cellsGet h.cells h.next = none := by
    cases hcg : cellsGet h.cells h.next with
    | none => rfl
    | some o'' =>
        have := hWF _ (cellsGet_mem _ _ _ hcg)
        simp at this
  show cellsGet (h.cells ++ [(h.next, o)]) h.next = some o
  rw [cellsGet_none_append _ _ _ hnone, cellsGet]
  simp

theorem Heap.alloc_get_old {h : Heap} (hWF : h.WF) {a : Nat} (ha : a < h.next) (o : HObj) :
    (h.alloc o).1.get a = h.get a := by
  cases hg : h.get a with
  | some o' => exact Heap.alloc_preserve o hg
  | none =>
      show cellsGet (h.cells ++ [(h.next, o)]) a = none
      have hne : ¬h.next = a := by omega
      rw [cellsGet_none_append _ _ _ hg, cellsGet]
      simp [hne]
      rfl

theorem Heap.alloc_WF {h : Heap} (hWF : h.WF) (o : HObj) : (h.alloc o).1.WF := by
  intro c hc
  simp [Heap.alloc] at hc
  rcases hc with hc | hc
  · have := hWF c hc
    simp [Heap.alloc]
    omega
  · simp [Heap.alloc, hc]

theorem Heap.get_lt_next {h : Heap} (hWF : h.WF) {a : Nat} {o : HObj}
    (hg : h.get a = some o) : a < h.next :=
  hWF _ (cellsGet_mem _ _ _ hg)

mutual

theorem allocTree_next : ∀ (v : JsVal) (h : Heap), h.next ≤ ((allocTree v h).2).next
  | .undef, h => le_refl _
  | .null, h => le_refl _
  | .boolV b, h => le_refl _
  | .intV n, h => le_refl _
  | .strV s, h => le_refl _
  | .bigV n, h => le_refl _
  | .arrV xs, h => by
      have h1 := allocItems_next xs h
      simp [allocTree, Heap.alloc]
      omega
  | .objV fs, h => by
      have h1 := allocEntries_next fs h
      simp [allocTree, Heap.alloc]
      omega

theorem allocItems_next : ∀ (xs : JsArr) (h : Heap), h.next ≤ ((allocItems xs h).2).next
  | .nil, h => le_refl _
  | .cons v rest, h => by
      have h1 := allocTree_next v h
      have h2 := allocItems_next rest (allocTree v h).2
      simp [allocItems]
      omega

theorem allocEntries_next : ∀ (fs : JsFields) (h : Heap), h.next ≤ ((allocEntries fs h).2).next
  | .nil, h => le_refl _
  | .cons k v rest, h => by
      have h1 := allocTree_next v h
      have h2 := allocEntries_next rest (allocTree v h).2
      simp [allocEntries]
      omega

end

mutual

theorem allocTree_WF : ∀ (v : JsVal) (h : Heap), h.WF → ((allocTree v h).2).WF
  | .undef, h => id
  | .null, h => id
  | .boolV b, h => id
  | .intV n, h => id
  | .strV s, h => id
  | .bigV n, h => id
  | .arrV xs, h => fun hWF =>
      Heap.alloc_WF (allocItems_WF xs h hWF) (.mkArr (allocItems xs h).1)
  | .objV fs, h => fun hWF =>
      Heap.alloc_WF (allocEntries_WF fs h hWF) (.mkObj (allocEntries fs h).1)

theorem allocItems_WF : ∀ (xs : JsArr) (h : Heap), h.WF → ((allocItems xs h).2).WF
  | .nil, h => id
  | .cons v rest, h => fun hWF => allocItems_WF rest (allocTree v h).2 (allocTree_WF v h hWF)

theorem allocEntries_WF : ∀ (fs : JsFields) (h : Heap), h.WF → ((allocEntries fs h).2).WF
  | .nil, h => id
  | .cons k v rest, h => fun hWF => allocEntries_WF rest (allocTree v h).2 (allocTree_WF v h hWF)

end

mutual

theorem allocTree_get_lt : ∀ (v : JsVal) (h : Heap), h.WF → ∀ a, a < h.next →
    ((allocTree v h).2).get a = h.get a
  | .undef, h => fun _ _ _ => rfl
  | .null, h => fun _ _ _ => rfl
  | .boolV b, h => fun _ _ _ => rfl
  | .intV n, h => fun _ _ _ => rfl
  | .strV s, h => fun _ _ _ => rfl
  | .bigV n, h => fun _ _ _ => rfl
  | .arrV xs, h => fun hWF a ha =>
      (Heap.alloc_get_old (allocItems_WF xs h hWF)
          (lt_of_lt_of_le ha (allocItems_next xs h)) _).trans
        (allocItems_get_lt xs h hWF a ha)
  | .objV fs, h => fun hWF a ha =>
      (Heap.alloc_get_old (allocEntries_WF fs h hWF)
          (lt_of_lt_of_le ha (allocEntries_next fs h)) _).trans
        (allocEntries_get_lt fs h hWF a ha)

theorem allocItems_get_lt : ∀ (xs : JsArr) (h : Heap), h.WF → ∀ a, a < h.next →
    ((allocItems xs h).2).get a = h.get a
  | .nil, h => fun _ _ _ => rfl
  | .cons v rest, h => fun hWF a ha =>
      (allocItems_get_lt rest (allocTree v h).2 (allocTree_WF v h hWF) a
          (lt_of_lt_of_le ha (allocTree_next v h))).trans
        (allocTree_get_lt v h hWF a ha)

theorem allocEntries_get_lt : ∀ (fs : JsFields) (h : Heap), h.WF → ∀ a, a < h.next →
    ((allocEntries fs h).2).get a = h.get a
  | .nil, h => fun _ _ _ => rfl
  | .cons k v rest, h => fun hWF a ha =>
      (allocEntries_get_lt rest (allocTree v h).2 (allocTree_WF v h hWF) a
          (lt_of_lt_of_le ha (allocTree_next v h))).trans
        (allocTree_get_lt v h hWF a ha)

end

mutual

theorem allocTree_refs_lo : ∀ (v : JsVal) (h : Heap) (r : Nat),
    r ∈ refsV ((allocTree v h).1) → h.next ≤ r
  | .undef, h => by intro r hr; simp [allocTree, refsV] at hr
  | .null, h => by intro r hr; simp [allocTree, refsV] at hr
  | .boolV b, h => by intro r hr; simp [allocTree, refsV] at hr
  | .intV n, h => by intro r hr; simp [allocTree, refsV] at hr
  | .strV s, h => by intro r hr; simp [allocTree, refsV] at hr
  | .bigV n, h => by intro r hr; simp [allocTree, refsV] at hr
  | .arrV xs, h => by
      intro r hr
      simp [allocTree, refsV, Heap.alloc] at hr
      subst hr
      exact allocItems_next xs h
  | .objV fs, h => by
      intro r hr
      simp [allocTree, refsV, Heap.alloc] at hr
      subst hr
      exact allocEntries_next fs h

theorem allocItems_refs_lo : ∀ (xs : JsArr) (h : Heap) (r : Nat),
    r ∈ refsItemsH ((allocItems xs h).1) → h.next ≤ r
  | .nil, h => by intro r hr; simp [allocItems, refsItemsH] at hr
  | .cons v rest, h => by
      intro r hr
      simp only [allocItems, refsItemsH] at hr
      rcases List.mem_append.mp hr with hr | hr
      · exact allocTree_refs_lo v h r hr
      · exact le_trans (allocTree_next v h) (allocItems_refs_lo rest (allocTree v h).2 r hr)

theorem allocEntries_refs_lo : ∀ (fs : JsFields) (h : Heap) (r : Nat),
    r ∈ refsFieldsH ((allocEntries fs h).1) → h.next ≤ r
  | .nil, h => by intro r hr; simp [allocEntries, refsFieldsH] at hr
  | .cons k v rest, h => by
      intro r hr
      simp only [allocEntries, refsFieldsH] at hr
      rcases List.mem_append.mp hr with hr | hr
      · exact allocTree_refs_lo v h r hr
      · exact le_trans (allocTree_next v h) (allocEntries_refs_lo rest (allocTree v h).2 r hr)

end

mutual

theorem allocTree_new_closed : ∀ (v : JsVal) (h : Heap), h.WF → ∀ a o, h.next ≤ a →
    ((allocTree v h).2).get a = some o → ∀ r ∈ refsObj o, h.next ≤ r
  | .undef, h => fun hWF a o ha hg => by
      have := Heap.get_lt_next hWF hg
      omega
  | .null, h => fun hWF a o ha hg => by
      have := Heap.get_lt_next hWF hg
      omega
  | .boolV b, h => fun hWF a o ha hg => by
      have := Heap.get_lt_next hWF hg
      omega
  | .intV n, h => fun hWF a o ha hg => by
      have := Heap.get_lt_next hWF hg
      omega
  | .strV s, h => fun hWF a o ha hg => by
      have := Heap.get_lt_next hWF hg
      omega
  | .bigV n, h => fun hWF a o ha hg => by
      have := Heap.get_lt_next hWF hg
      omega
  | .arrV xs, h => fun hWF a o ha hg => by
      have hWp : ((allocItems xs h).2).WF := allocItems_WF xs h hWF
      have hWq := Heap.alloc_WF hWp (HObj.mkArr (allocItems xs h).1)
      have hlt : a < ((allocItems xs h).2).next + 1 := Heap.get_lt_next hWq hg
      by_cases he : a = ((allocItems xs h).2).next
      · subst he
        have hnew := Heap.alloc_get_new hWp (HObj.mkArr (allocItems xs h).1)
        rw [show ((allocTree (.arrV xs) h).2).get ((allocItems xs h).2).next
            = ((allocItems xs h).2.alloc (HObj.mkArr (allocItems xs h).1)).1.get
                ((allocItems xs h).2).next from rfl, hnew] at hg
        obtain rfl := Option.some_inj.mp hg.symm
        intro r hr
        exact allocItems_refs_lo xs h r hr
      · have hlt2 : a < ((allocItems xs h).2).next := by omega
        rw [show ((allocTree (.arrV xs) h).2).get a
            = ((allocItems xs h).2.alloc (HObj.mkArr (allocItems xs h).1)).1.get a from rfl,
          Heap.alloc_get_old hWp hlt2] at hg
        exact allocItems_new_closed xs h hWF a o ha hg
  | .objV fs, h => fun hWF a o ha hg => by
      have hWp : ((allocEntries fs h).2).WF := allocEntries_WF fs h hWF
      have hWq := Heap.alloc_WF hWp (HObj.mkObj (allocEntries fs h).1)
      have hlt : a < ((allocEntries fs h).2).next + 1 := Heap.get_lt_next hWq hg
      by_cases he : a = ((allocEntries fs h).2).next
      · subst he
        have hnew := Heap.alloc_get_new hWp (HObj.mkObj (allocEntries fs h).1)
        rw [show ((allocTree (.objV fs) h).2).get ((allocEntries fs h).2).next
            = ((allocEntries fs h).2.alloc (HObj.mkObj (allocEntries fs h).1)).1.get
                ((allocEntries fs h).2).next from rfl, hnew] at hg
        obtain rfl := Option.some_inj.mp hg.symm
        intro r hr
        exact allocEntries_refs_lo fs h r hr
      · have hlt2 : a < ((allocEntries fs h).2).next := by omega
        rw [show ((allocTree (.objV fs) h).2).get a
            = ((allocEntries fs h).2.alloc (HObj.mkObj (allocEntries fs h).1)).1.get a from rfl,
          Heap.alloc_get_old hWp hlt2] at hg
        exact allocEntries_new_closed fs h hWF a o ha hg

theorem allocItems_new_closed : ∀ (xs : JsArr) (h : Heap), h.WF → ∀ a o, h.next ≤ a →
    ((allocItems xs h).2).get a = some o → ∀ r ∈ refsObj o, h.next ≤ r
  | .nil, h => fun hWF a o ha hg => by
      have := Heap.get_lt_next hWF hg
      omega
  | .cons v rest, h => fun hWF a o ha hg => by
      have hWp : ((allocTree v h).2).WF := allocTree_WF v h hWF
      by_cases hlt : a < ((allocTree v h).2).next
      · rw [show ((allocItems (.cons v rest) h).2).get a
            = ((allocItems rest (allocTree v h).2).2).get a from rfl,
          allocItems_get_lt rest (allocTree v h).2 hWp a hlt] at hg
        exact allocTree_new_closed v h hWF a o ha hg
      · rw [show ((allocItems (.cons v rest) h).2).get a
            = ((allocItems rest (allocTree v h).2).2).get a from rfl] at hg
        intro r hr
        exact le_trans (allocTree_next v h)
          (allocItems_new_closed rest (allocTree v h).2 hWp a o (by omega) hg r hr)

theorem allocEntries_new_closed : ∀ (fs : JsFields) (h : Heap), h.WF → ∀ a o, h.next ≤ a →
    ((allocEntries fs h).2).get a = some o → ∀ r ∈ refsObj o, h.next ≤ r
  | .nil, h => fun hWF a o ha hg => by
      have := Heap.get_lt_next hWF hg
      omega
  | .cons k v rest, h => fun hWF a o ha hg => by
      have hWp : ((allocTree v h).2).WF := allocTree_WF v h hWF
      by_cases hlt : a < ((allocTree v h).2).next
      · rw [show ((allocEntries (.cons k v rest) h).2).get a
            = ((allocEntries rest (allocTree v h).2).2).get a from rfl,
          allocEntries_get_lt rest (allocTree v h).2 hWp a hlt] at hg
        exact allocTree_new_closed v h hWF a o ha hg
      · rw [show ((allocEntries (.cons k v rest) h).2).get a
            = ((allocEntries rest (allocTree v h).2).2).get a from rfl] at hg
        intro r hr
        exact le_trans (allocTree_next v h)
          (allocEntries_new_closed rest (allocTree v h).2 hWp a o (by omega) hg r hr)

end

theorem getKeyH_refs : ∀ (fs : List (String × HVal)) (k : String) (v : HVal),
    getKeyH k fs = some v → ∀ r ∈ refsV v, r ∈ refsFieldsH fs := by
  intro fs k v h r hr
  induction fs with
  | nil => cases h
  | cons kv rest ih =>
      obtain ⟨k', v'⟩ := kv
      by_cases hk : k' = k
      · rw [getKeyH, if_pos hk] at h
        obtain rfl := Option.some_inj.mp h
        rw [refsFieldsH]
        exact List.mem_append.mpr (Or.inl hr)
      · rw [getKeyH, if_neg hk] at h
        rw [refsFieldsH]
        exact List.mem_append.mpr (Or.inr (ih h))

theorem refs_setKeyH : ∀ (fs : List (String × HVal)) (k c : String) (r : Nat),
    r ∈ refsFieldsH (setKeyH k (.strH c) fs) → r ∈ refsFieldsH fs := by
  intro fs k c r h
  induction fs with
  | nil =>
      rw [setKeyH, refsFieldsH, refsFieldsH] at h
      simp [refsV] at h
  | cons kv rest ih =>
      obtain ⟨k', v'⟩ := kv
      by_cases hk : k' = k
      · rw [setKeyH, if_pos hk, refsFieldsH] at h
        rcases List.mem_append.mp h with h | h
        · simp [refsV] at h
        · rw [refsFieldsH]
          exact List.mem_append.mpr (Or.inr h)
      · rw [setKeyH, if_neg hk, refsFieldsH] at h
        rw [refsFieldsH]
        rcases List.mem_append.mp h with h | h
        · exact List.mem_append.mpr (Or.inl h)
        · exact List.mem_append.mpr (Or.inr (ih h))

theorem navPath_ge : ∀ (p : List String) (h : Heap) (v : HVal) (n : Nat),
    (∀ b o, h.get b = some o → n ≤ b → ∀ r ∈ refsObj o, n ≤ r) →
    (∀ r ∈ refsV v, n ≤ r) →
    ∀ a k, navPath h v p = some (a, k) → n ≤ a
  | [], h, v, n => by
      intro _ _ a k hn
      cases v <;> simp [navPath] at hn
  | [k'], h, v, n => by
      intro hcl hv a k hn
      cases v with
      | ref a' =>
          cases hg : h.get a' with
          | none => simp [navPath, hg] at hn
          | some obj =>
              cases obj with
              | mkObj fs =>
                  by_cases hk : hasKeyH k' fs = true
                  · simp [navPath, hg, hk] at hn
                    obtain ⟨rfl, rfl⟩ := hn
                    exact hv a' (by simp [refsV])
                  · simp [navPath, hg, hk] at hn
              | mkArr xs => simp [navPath, hg] at hn
      | undef => simp [navPath] at hn
      | null => simp [navPath] at hn
      | boolH b => simp [navPath] at hn
      | intH m => simp [navPath] at hn
      | strH s => simp [navPath] at hn
      | bigH m => simp [navPath] at hn
  | k' :: k2 :: ks, h, v, n => by
      intro hcl hv a k hn
      cases v with
      | ref a' =>
          cases hg : h.get a' with
          | none => simp [navPath, hg] at hn
          | some obj =>
              cases obj with
              | mkObj fs =>
                  cases hk : getKeyH k' fs with
                  | none => simp [navPath, hg, hk] at hn
                  | some v' =>
                      simp [navPath, hg, hk] at hn
                      have ha' : n ≤ a' := hv a' (by simp [refsV])
                      have hv' : ∀ r ∈ refsV v', n ≤ r := fun r hr =>
                        hcl a' (.mkObj fs) hg ha' r (getKeyH_refs fs k' v' hk r hr)
                      exact navPath_ge (k2 :: ks) h v' n hcl hv' a k hn
              | mkArr xs => simp [navPath, hg] at hn
      | undef => simp [navPath] at hn
      | null => simp [navPath] at hn
      | boolH b => simp [navPath] at hn
      | intH m => simp [navPath] at hn
      | strH s => simp [navPath] at hn
      | bigH m => simp [navPath] at hn

theorem applyPathH_next (censor : String) (h : Heap) (v : HVal) (p : List String) :
    (applyPathH censor h v p).next = h.next := by
  rw [applyPathH]
  cases hn : navPath h v p with
  | none => rfl
  | some ak =>
      cases hg : h.get ak.1 with
      | none => simp [hg]
      | some obj => cases obj <;> simp [hg, Heap.set_next]

theorem applyPathH_WF {h : Heap} (hWF : h.WF) (censor : String) (v : HVal) (p : List String) :
    (applyPathH censor h v p).WF := by
  rw [applyPathH]
  cases hn : navPath h v p with
  | none => exact hWF
  | some ak =>
      cases hg : h.get ak.1 with
      | none => simpa [hg] using hWF
      | some obj =>
          cases obj with
          | mkObj fs => simpa [hg] using Heap.set_WF hWF _ _
          | mkArr xs => simpa [hg] using hWF

theorem applyPathH_frame (censor : String) (h : Heap) (v : HVal) (p : List String) (n : Nat)
    (hcl : ∀ b o, h.get b = some o → n ≤ b → ∀ r ∈ refsObj o, n ≤ r)
    (hv : ∀ r ∈ refsV v, n ≤ r) :
    ∀ b, b < n → (applyPathH censor h v p).get b = h.get b := by
  intro b hb
  rw [applyPathH]
  cases hn : navPath h v p with
  | none => rfl
  | some ak =>
      have ha := navPath_ge p h v n hcl hv ak.1 ak.2 (by rw [hn])
      cases hg : h.get ak.1 with
      | none => simp [hg]
      | some obj =>
          cases obj with
          | mkObj fs =>
              simp only [hg]
              exact Heap.get_set_ne (by omega)
          | mkArr xs => simp [hg]

theorem applyPathH_hcl (censor : String) (h : Heap) (v : HVal) (p : List String) (n : Nat)
    (hcl : ∀ b o, h.get b = some o → n ≤ b → ∀ r ∈ refsObj o, n ≤ r)
    (hv : ∀ r ∈ refsV v, n ≤ r) :
    ∀ b o, (applyPathH censor h v p).get b = some o → n ≤ b → ∀ r ∈ refsObj o, n ≤ r := by
  intro b o hget hb
  rw [applyPathH] at hget
  cases hn : navPath h v p with
  | none => rw [hn] at hget; exact hcl b o hget hb
  | some ak =>
      obtain ⟨a1, k1⟩ := ak
      rw [hn] at hget
      have ha : n ≤ a1 := navPath_ge p h v n hcl hv a1 k1 hn
      cases hg : h.get a1 with
      | none => simp only [hg] at hget; exact hcl b o hget hb
      | some obj =>
          cases obj with
          | mkArr xs => simp only [hg] at hget; exact hcl b o hget hb
          | mkObj fs =>
              simp only [hg] at hget
              by_cases hba : a1 = b
              · subst hba
                rw [Heap.get_set_self hg] at hget
                obtain rfl := Option.some_inj.mp hget.symm
                intro r hr
                exact hcl a1 (.mkObj fs) hg hb r (refs_setKeyH fs k1 censor r hr)
              · rw [Heap.get_set_ne hba] at hget
                exact hcl b o hget hb

theorem redactHeap_inv (censor : String) (n : Nat) :
    ∀ (paths : List (List String)) (h : Heap) (v : HVal),
    h.WF →
    (∀ b o, h.get b = some o → n ≤ b → ∀ r ∈ refsObj o, n ≤ r) →
    (∀ r ∈ refsV v, n ≤ r) →
    (∀ b, b < n → (redactHeap paths censor v h).get b = h.get b) ∧
    (redactHeap paths censor v h).next = h.next ∧ (redactHeap paths censor v h).WF := by
  intro paths
  induction paths with
  | nil => exact fun h v hWF _ _ => ⟨fun _ _ => rfl, rfl, hWF⟩
  | cons p ps ih =>
      intro h v hWF hcl hv
      have hfold : redactHeap (p :: ps) censor v h
          = redactHeap ps censor v (applyPathH censor h v p) := rfl
      have hWF1 := applyPathH_WF hWF censor v p
      have hcl1 := applyPathH_hcl censor h v p n hcl hv
      obtain ⟨hframe, hnext, hWF2⟩ := ih (applyPathH censor h v p) v hWF1 hcl1 hv
      rw [hfold]
      refine ⟨?_, ?_, hWF2⟩
      · intro b hb
        rw [hframe b hb]
        exact applyPathH_frame censor h v p n hcl hv b hb
      · rw [hnext, applyPathH_next]

theorem objAssignHeap_frame (h : Heap) (target : Nat) (src : HVal) :
    ∀ b, ¬target = b → (objAssignHeap h target src).get b = h.get b := by
  intro b hb
  rw [objAssignHeap]
  cases hg : h.get target with
  | none => rfl
  | some obj =>
      cases obj with
      | mkObj fs => exact Heap.get_set_ne hb
      | mkArr xs => rfl

theorem objAssignHeap_next (h : Heap) (target : Nat) (src : HVal) :
    (objAssignHeap h target src).next = h.next := by
  rw [objAssignHeap]
  cases hg : h.get target with
  | none => rfl
  | some obj => cases obj <;> rfl

theorem objAssignHeap_WF {h : Heap} (hWF : h.WF) (target : Nat) (src : HVal) :
    (objAssignHeap h target src).WF := by
  rw [objAssignHeap]
  cases hg : h.get target with
  | none => exact hWF
  | some obj =>
      cases obj with
      | mkObj fs => exact Heap.set_WF hWF _ _
      | mkArr xs => exact hWF

theorem emitH_frame {cfg : RedactOptions} {h : Heap} {r : Nat} {h' : Heap}
    (hWF : h.WF) (he : emitH cfg h r = some h') :
    (∀ a o, ¬a = r → h.get a = some o → h'.get a = some o) ∧
    h.next ≤ h'.next ∧ h'.WF := by
  rw [emitH] at he
  cases ht : emitRedactInput cfg h r with
  | none => rw [ht] at he; cases he
  | some t =>
      rw [ht] at he
      obtain rfl := Option.some_inj.mp he.symm
      have hWp := allocTree_WF t h hWF
      have hcl1 := allocTree_new_closed t h hWF
      have hrefs := allocTree_refs_lo t h
      obtain ⟨hframe, hnext, hWF2⟩ :=
        redactHeap_inv cfg.censor h.next cfg.paths (allocTree t h).2 (allocTree t h).1
          hWp (fun b o hg hb => hcl1 b o hb hg) hrefs
      refine ⟨?_, ?_, objAssignHeap_WF hWF2 _ _⟩
      · intro a o ha hg
        have halt : a < h.next := Heap.get_lt_next hWF hg
        rw [objAssignHeap_frame _ _ _ a (fun hh => ha hh.symm), hframe a halt,
          allocTree_get_lt t h hWF a halt]
        exact hg
      · rw [objAssignHeap_next, hnext]
        exact allocTree_next t h

theorem optionMapM_cons {α β : Type} {f : α → Option β} (x : α) (xs : List α) :
    (x :: xs).mapM f = (f x).bind fun y => (xs.mapM f).bind fun ys => some (y :: ys) := by
  rw [List.mapM_cons]
  rfl

theorem optionMapM_of_forall {α β : Type} {f g : α → Option β} :
    ∀ (l : List α) (ys : List β), l.mapM f = some ys →
    (∀ x ∈ l, ∀ y, f x = some y → g x = some y) → l.mapM g = some ys := by
  intro l
  induction l with
  | nil => intro ys h _; simpa using h
  | cons x xs ih =>
      intro ys h hfg
      rw [optionMapM_cons] at h ⊢
      cases hfx : f x with
      | none => rw [hfx] at h; simp at h
      | some y =>
          rw [hfx] at h
          cases hrest : xs.mapM f with
          | none => rw [hrest] at h; simp at h
          | some ys' =>
              rw [hrest] at h
              simp only [Option.some_bind] at h
              rw [hfg x (List.mem_cons_self x xs) y hfx,
                ih ys' hrest (fun z hz => hfg z (List.mem_cons_of_mem x hz))]
              simpa using h

theorem mem_refsFieldsH {q : Nat} : ∀ (fs : List (String × HVal)) (kv : String × HVal),
    kv ∈ fs → q ∈ refsV kv.2 → q ∈ refsFieldsH fs := by
  intro fs kv hm hq
  induction fs with
  | nil => cases hm
  | cons kv' rest ih =>
      obtain ⟨k', v'⟩ := kv'
      rw [refsFieldsH]
      rcases List.mem_cons.mp hm with h | h
      · subst h; exact List.mem_append.mpr (Or.inl hq)
      · exact List.mem_append.mpr (Or.inr (ih h))

theorem mem_refsItemsH {q : Nat} : ∀ (xs : List HVal) (v : HVal),
    v ∈ xs → q ∈ refsV v → q ∈ refsItemsH xs := by
  intro xs v hm hq
  induction xs with
  | nil => cases hm
  | cons v' rest ih =>
      rw [refsItemsH]
      rcases List.mem_cons.mp hm with h | h
      · subst h; exact List.mem_append.mpr (Or.inl hq)
      · exact List.mem_append.mpr (Or.inr (ih h))

theorem refs_restH {q : Nat} : ∀ (fs : List (String × HVal)),
    q ∈ refsFieldsH (restH fs) → q ∈ refsFieldsH fs := by
  intro fs h
  induction fs with
  | nil => exact h
  | cons kv rest ih =>
      obtain ⟨k, v⟩ := kv
      rw [restH] at h
      by_cases hr : reservedKeys.contains k = true
      · rw [if_pos hr] at h
        rw [refsFieldsH]
        exact List.mem_append.mpr (Or.inr (ih h))
      · rw [if_neg hr] at h
        rw [refsFieldsH] at h ⊢
        rcases List.mem_append.mp h with h | h
        · exact List.mem_append.mpr (Or.inl h)
        · exact List.mem_append.mpr (Or.inr (ih h))


theorem readVal_step {n r : Nat} {h₁ h₂ : Heap}
    (hag : ∀ a o, a < n → ¬a = r → h₁.get a = some o → h₂.get a = some o)
    (hcl : ∀ a o, a < n → ¬a = r → h₁.get a = some o → ∀ q ∈ refsObj o, q < n ∧ ¬q = r) :
    ∀ fuel fuel', fuel ≤ fuel' → ∀ (v : HVal) (t : JsVal),
    (∀ q ∈ refsV v, q < n ∧ ¬q = r) →
    readVal fuel h₁ v = some t → readVal fuel' h₂ v = some t
  | 0, fuel', _, v, t => by
      intro hv hr
      cases v <;> simp [readVal] at hr ⊢ <;> exact hr
  | fuel + 1, fuel', hle, v, t => by
      intro hv hr
      cases v with
      | undef => simp [readVal] at hr ⊢; exact hr
      | null => simp [readVal] at hr ⊢; exact hr
      | boolH b => simp [readVal] at hr ⊢; exact hr
      | intH m => simp [readVal] at hr ⊢; exact hr
      | strH s => simp [readVal] at hr ⊢; exact hr
      | bigH m => simp [readVal] at hr ⊢; exact hr
      | ref a =>
          obtain ⟨f', rfl⟩ : ∃ f', fuel' = f' + 1 := ⟨fuel' - 1, by omega⟩
          have ha := hv a (by simp [refsV])
          rw [readVal] at hr
          cases hg : h₁.get a with
          | none =>
              rw [hg] at hr
              cases (show (none : Option JsVal) = some t from hr)
          | some o =>
              rw [hg] at hr
              have hg₂ := hag a o ha.1 ha.2 hg
              rw [readVal, hg₂]
              cases o with
              | mkObj fs =>
                  have hr' : ((fs.mapM fun kv =>
                        (readVal fuel h₁ kv.2).map fun u => (kv.1, u)).map
                      fun l => JsVal.objV (fieldsOfList l)) = some t := hr
                  show ((fs.mapM fun kv =>
                        (readVal f' h₂ kv.2).map fun u => (kv.1, u)).map
                      fun l => JsVal.objV (fieldsOfList l)) = some t
                  cases hm : fs.mapM
                      (fun kv => (readVal fuel h₁ kv.2).map fun u => (kv.1, u)) with
                  | none => rw [hm] at hr'; cases hr'
                  | some l =>
                      rw [hm] at hr'
                      simp at hr'
                      have hcond : ∀ kv ∈ fs, ∀ y,
                          (readVal fuel h₁ kv.2).map (fun u => (kv.1, u)) = some y →
                          (readVal f' h₂ kv.2).map (fun u => (kv.1, u)) = some y := by
                        intro kv hkv y hy
                        cases hrv : readVal fuel h₁ kv.2 with
                        | none => rw [hrv] at hy; cases hy
                        | some u =>
                            rw [hrv] at hy
                            have hq : ∀ q ∈ refsV kv.2, q < n ∧ ¬q = r := fun q hq =>
                              hcl a (.mkObj fs) ha.1 ha.2 hg q (mem_refsFieldsH fs kv hkv hq)
                            rw [readVal_step hag hcl fuel f' (by omega) kv.2 u hq hrv]
                            exact hy
                      rw [optionMapM_of_forall fs l hm hcond]
                      simp [hr']
              | mkArr xs =>
                  have hr' : ((xs.mapM (readVal fuel h₁)).map
                      fun l => JsVal.arrV (arrOfList l)) = some t := hr
                  show ((xs.mapM (readVal f' h₂)).map
                      fun l => JsVal.arrV (arrOfList l)) = some t
                  cases hm : xs.mapM (readVal fuel h₁) with
                  | none => rw [hm] at hr'; cases hr'
                  | some l =>
                      rw [hm] at hr'
                      simp at hr'
                      have hcond : ∀ x ∈ xs, ∀ y,
                          readVal fuel h₁ x = some y → readVal f' h₂ x = some y := by
                        intro x hx y hy
                        have hq : ∀ q ∈ refsV x, q < n ∧ ¬q = r := fun q hq =>
                          hcl a (.mkArr xs) ha.1 ha.2 hg q (mem_refsItemsH xs x hx hq)
                        exact readVal_step hag hcl fuel f' (by omega) x y hq hy
                      rw [optionMapM_of_forall xs l hm hcond]
                      simp [hr']

theorem readFieldsTop_step {n r : Nat} {h₁ h₂ : Heap}
    (hag : ∀ a o, a < n → ¬a = r → h₁.get a = some o → h₂.get a = some o)
    (hcl : ∀ a o, a < n → ¬a = r → h₁.get a = some o → ∀ q ∈ refsObj o, q < n ∧ ¬q = r) :
    ∀ fuel fuel', fuel ≤ fuel' → ∀ (fs : List (String × HVal)) (out : JsFields),
    (∀ q ∈ refsFieldsH fs, q < n ∧ ¬q = r) →
    readFieldsTop fuel h₁ fs = some out → readFieldsTop fuel' h₂ fs = some out := by
  intro fuel fuel' hle fs out hfs hr
  rw [readFieldsTop] at hr ⊢
  cases hm : fs.mapM (fun kv => (readVal fuel h₁ kv.2).map fun u => (kv.1, u)) with
  | none => rw [hm] at hr; cases hr
  | some l =>
      rw [hm] at hr
      simp at hr
      have hcond : ∀ kv ∈ fs, ∀ y,
          (readVal fuel h₁ kv.2).map (fun u => (kv.1, u)) = some y →
          (readVal fuel' h₂ kv.2).map (fun u => (kv.1, u)) = some y := by
        intro kv hkv y hy
        cases hrv : readVal fuel h₁ kv.2 with
        | none => rw [hrv] at hy; cases hy
        | some u =>
            rw [hrv] at hy
            have hq : ∀ q ∈ refsV kv.2, q < n ∧ ¬q = r := fun q hq =>
              hfs q (mem_refsFieldsH fs kv hkv hq)
            rw [readVal_step hag hcl fuel fuel' hle kv.2 u hq hrv]
            exact hy
      rw [optionMapM_of_forall fs l hm hcond]
      simp [hr]

/-- **C2.** The interceptor applies redaction only to the freshly parsed copy
of the record's serialized payload: a successful `emitH` leaves every heap
cell other than the log-record cell itself exactly as it was (the caller's
payload objects are unchanged), and a second log call whose record carries
the same payload references computes the same redaction input as it would
have on the original heap — the first redaction does not affect the second. -/
theorem emit_no_caller_mutation
    (cfg : RedactOptions) (h : Heap) (r : Nat) (h' : Heap)
    (hWF : h.WF)
    (hclosed : ∀ c ∈ h.cells, ¬c.1 = r → ∀ q ∈ refsObj c.2, q < h.next ∧ ¬q = r)
    (he : emitH cfg h r = some h') :
    (∀ a o, ¬a = r → h.get a = some o → h'.get a = some o) ∧
    (∀ (fields₂ : List (String × HVal)) (t₂ : JsVal),
      (∀ q ∈ refsFieldsH fields₂, q < h.next ∧ ¬q = r) →
      emitRedactInput cfg (h.alloc (.mkObj fields₂)).1 (h.alloc (.mkObj fields₂)).2
        = some t₂ →
      emitRedactInput cfg (h'.alloc (.mkObj fields₂)).1 (h'.alloc (.mkObj fields₂)).2
        = some t₂) := by
  obtain ⟨hframe, hnext, hWF'⟩ := emitH_frame hWF he
  refine ⟨hframe, ?_⟩
  intro fields₂ t₂ hf2 hin
  have hget₁ : (h.alloc (HObj.mkObj fields₂)).1.get (h.alloc (HObj.mkObj fields₂)).2
      = some (HObj.mkObj fields₂) := Heap.alloc_get_new hWF _
  have hget₂ : (h'.alloc (HObj.mkObj fields₂)).1.get (h'.alloc (HObj.mkObj fields₂)).2
      = some (HObj.mkObj fields₂) := Heap.alloc_get_new hWF' _
  rw [emitRedactInput, hget₁] at hin
  have hin' : (match readFieldsTop ((h.alloc (HObj.mkObj fields₂)).1.next + 1)
        (h.alloc (HObj.mkObj fields₂)).1 (restH fields₂) with
      | some ts =>
          match stringifyTree (JsVal.objV ts) with
          | some s => parseTree (grOf cfg s)
          | none => none
      | none => none) = some t₂ := hin
  rw [emitRedactInput, hget₂]
  show (match readFieldsTop ((h'.alloc (HObj.mkObj fields₂)).1.next + 1)
        (h'.alloc (HObj.mkObj fields₂)).1 (restH fields₂) with
      | some ts =>
          match stringifyTree (JsVal.objV ts) with
          | some s => parseTree (grOf cfg s)
          | none => none
      | none => none) = some t₂
  have hagA : ∀ a o, a < h.next → ¬a = r →
      (h.alloc (HObj.mkObj fields₂)).1.get a = some o →
      (h'.alloc (HObj.mkObj fields₂)).1.get a = some o := by
    intro a o ha har hg
    rw [Heap.alloc_get_old hWF ha _] at hg
    rw [Heap.alloc_get_old hWF' (lt_of_lt_of_le ha hnext) _]
    exact hframe a o har hg
  have hclA : ∀ a o, a < h.next → ¬a = r →
      (h.alloc (HObj.mkObj fields₂)).1.get a = some o →
      ∀ q ∈ refsObj o, q < h.next ∧ ¬q = r := by
    intro a o ha har hg
    rw [Heap.alloc_get_old hWF ha _] at hg
    exact hclosed (a, o) (cellsGet_mem h.cells a o hg) har
  cases hrf : readFieldsTop ((h.alloc (HObj.mkObj fields₂)).1.next + 1)
      (h.alloc (HObj.mkObj fields₂)).1 (restH fields₂) with
  | none =>
      rw [hrf] at hin'
      cases (show (none : Option JsVal) = some t₂ from hin')
  | some ts =>
      rw [hrf] at hin'
      have hstep : readFieldsTop ((h'.alloc (HObj.mkObj fields₂)).1.next + 1)
          (h'.alloc (HObj.mkObj fields₂)).1 (restH fields₂) = some ts :=
        readFieldsTop_step hagA hclA _ _
          (by show h.next + 1 + 1 ≤ h'.next + 1 + 1; omega)
          (restH fields₂) ts (fun q hq => hf2 q (refs_restH fields₂ hq)) hrf
      rw [hstep]
      exact hin'

theorem emit_no_caller_mutation_witness :
    (⟨4, [(0, .mkObj [("password", .strH "secret")]),
          (1, .mkObj [("level", .intH 30), ("msg", .strH "hi"), ("req", .ref 2)]),
          (2, .mkObj [("password", .strH "[REDACTED]")]),
          (3, .mkObj [("msg", .strH "hi"), ("req", .ref 2)])]⟩ : Heap).get 0
      = some (HObj.mkObj [("password", HVal.strH "secret")]) ∧
    emitRedactInput { paths := [["req", "password"]] }
      ((⟨4, [(0, .mkObj [("password", .strH "secret")]),
             (1, .mkObj [("level", .intH 30), ("msg", .strH "hi"), ("req", .ref 2)]),
             (2, .mkObj [("password", .strH "[REDACTED]")]),
             (3, .mkObj [("msg", .strH "hi"), ("req", .ref 2)])]⟩ : Heap).alloc
        (.mkObj [("level", .intH 30), ("msg", .strH "hi"), ("req", .ref 0)])).1
      ((⟨4, [(0, .mkObj [("password", .strH "secret")]),
             (1, .mkObj [("level", .intH 30), ("msg", .strH "hi"), ("req", .ref 2)]),
             (2, .mkObj [("password", .strH "[REDACTED]")]),
             (3, .mkObj [("msg", .strH "hi"), ("req", .ref 2)])]⟩ : Heap).alloc
        (.mkObj [("level", .intH 30), ("msg", .strH "hi"), ("req", .ref 0)])).2
      = some (.objV (fieldsOfList [("msg", .strV "hi"),
          ("req", .objV (fieldsOfList [("password", .strV "secret")]))])) :=
  have hmain := emit_no_caller_mutation { paths := [["req", "password"]] }
    ⟨2, [(0, .mkObj [("password", .strH "secret")]),
         (1, .mkObj [("level", .intH 30), ("msg", .strH "hi"), ("req", .ref 0)])]⟩ 1
    ⟨4, [(0, .mkObj [("password", .strH "secret")]),
         (1, .mkObj [("level", .intH 30), ("msg", .strH "hi"), ("req", .ref 2)]),
         (2, .mkObj [("password", .strH "[REDACTED]")]),
         (3, .mkObj [("msg", .strH "hi"), ("req", .ref 2)])]⟩
    (by unfold Heap.WF; decide) (by decide) (by decide)
  ⟨hmain.1 0 (HObj.mkObj [("password", HVal.strH "secret")]) (by decide) (by decide),
   hmain.2 [("level", .intH 30), ("msg", .strH "hi"), ("req", .ref 0)]
     (.objV (fieldsOfList [("msg", .strV "hi"),
        ("req", .objV (fieldsOfList [("password", .strV "secret")]))]))
     (by decide) (by decide)⟩
